import Mathlib

/-!
# go-chess: move application and the sliding/stepping move generator

A shallow embedding of `src/core/moves.go`.

* Go `int` is modelled as `Int` with two's-complement wrap-around at 64 bits
  (`wrap`) wherever the source does arithmetic.
* The grid `board [8][8]square` is a total function on `Fin 8 × Fin 8`; every
  Go index expression goes through `index`, which faults outside `[0,8)` the
  way a Go array access panics.
* Functions that can panic return `Except Fault _`.
* The `for i := 1; i < 8; i++` loop is a structural recursion on the number
  of iterations that remain (`8 - i`), so it is total by construction.
-/

namespace Chess

/-! ## Data model -/

/-- Modelled from the spec: the colour type, whose declaration is not in
`moves.go`. The source uses the two constants `White` and `Black`. -/
inductive color where
  | White
  | Black
  deriving DecidableEq, Repr

/-- Go `type xy struct { x, y int }`. -/
structure xy where
  x : Int
  y : Int
  deriving DecidableEq, Repr

/-- Go `type abstract_move struct { from, to xy }` (`from` is reserved in
Lean and `to` is a Mathlib token, hence `from_`, `to_`). -/
structure abstract_move where
  from_ : xy
  to_ : xy
  deriving DecidableEq, Repr

/-- Modelled from the spec: the `square` struct, whose declaration is not in
`moves.go`; the source builds it as `square{nil, White}` and reads its fields
`piece` (a nil-able interface value) and `color`. The piece type `P` is a
parameter. -/
structure square (P : Type) where
  piece : Option P
  color : color
  deriving DecidableEq, Repr

/-- Modelled from the spec: the `Board` struct, whose declaration is not in
`moves.go`; the source uses the fields `board` (8×8 grid of squares),
`to_play` and `en_passant`. -/
structure Board (P : Type) where
  board : Fin 8 → Fin 8 → square P
  to_play : color
  en_passant : Int

/-- The ways a call can abort: a Go index-out-of-range panic, a failed
`assert`, or a method call on a nil interface value. -/
inductive Fault where
  | index_out_of_range
  | assertion (msg : String)
  | nil_dereference
  deriving DecidableEq, Repr

/-- The four Go types that implement the `move` interface (they have both a
`perform_move` and a `String` method). -/
inductive move (P : Type) where
  | normal_move (m : abstract_move)
  | pawn_push_two (m : abstract_move)
  | pawn_promote (m : abstract_move) (piece : Option P)
  | pawn_en_passant (m : abstract_move)
  deriving DecidableEq, Repr

/-- Go `type king_castle struct { king, rook abstract_move }`. `moves.go`
declares the type only; its methods are not in that file. -/
structure king_castle where
  king : abstract_move
  rook : abstract_move
  deriving DecidableEq, Repr

/-- Go `type moves []move`. -/
abbrev moves (P : Type) := List (move P)

/-! ## Machine integers and array indexing -/

/-- Two's-complement wrap-around of a Go `int` (64 bits):
`18446744073709551616 = 2^64`, `9223372036854775808 = 2^63`. -/
def wrap (z : Int) : Int :=
  (z + 9223372036854775808) % 18446744073709551616 - 9223372036854775808

/-- The value is a representable Go `int`. -/
def is_int (z : Int) : Prop :=
  -9223372036854775808 ≤ z ∧ z < 9223372036854775808

instance (z : Int) : Decidable (is_int z) :=
  inferInstanceAs (Decidable (-9223372036854775808 ≤ z ∧ z < 9223372036854775808))

/-- A Go array index into an array of length 8: `none` stands for the
index-out-of-range panic. -/
def index (v : Int) : Option (Fin 8) :=
  if h : 0 ≤ v ∧ v < 8 then some ⟨v.toNat, by omega⟩ else none

/-- The point lies on the 8×8 board. -/
def on_board (p : xy) : Prop :=
  0 ≤ p.x ∧ p.x < 8 ∧ 0 ≤ p.y ∧ p.y < 8

instance (p : xy) : Decidable (on_board p) :=
  inferInstanceAs (Decidable (0 ≤ p.x ∧ p.x < 8 ∧ 0 ≤ p.y ∧ p.y < 8))

variable {P : Type}

/-- The read `board.board[x][y]`. -/
def Board.get (b : Board P) (x y : Int) : Except Fault (square P) :=
  match index x, index y with
  | some i, some j => .ok (b.board i j)
  | _, _ => .error Fault.index_out_of_range

/-- The write `b.board[x][y] = s` on the local copy `b`. -/
def Board.set (b : Board P) (x y : Int) (s : square P) : Except Fault (Board P) :=
  match index x, index y with
  | some i, some j =>
    .ok { b with board := fun a c => if a = i ∧ c = j then s else b.board a c }
  | _, _ => .error Fault.index_out_of_range

/-- Modelled from the spec: the helper `assert(cond, msg)`, which is not in
`moves.go`; a violated assertion is a fatal fault. -/
def assert (cond : Bool) (msg : String) : Except Fault Unit :=
  if cond then .ok () else .error (Fault.assertion msg)

/-! ## Move application -/

/-- Go `flip_color`. -/
def flip_color (c : color) : color :=
  if c = color.White then color.Black else color.White

/-- Go `func (m normal_move) perform_move(board *Board) *Board`. -/
def normal_move.perform_move (m : abstract_move) (board : Board P) :
    Except Fault (Board P) := do
  let b := board
  let s ← b.get m.from_.x m.from_.y
  let b ← b.set m.to_.x m.to_.y s
  let b ← b.set m.from_.x m.from_.y ⟨none, color.White⟩
  let b := { b with en_passant := -2 }
  let b := { b with to_play := flip_color b.to_play }
  return b

/-- Go `func (m pawn_push_two) perform_move(board *Board) *Board`. -/
def pawn_push_two.perform_move (m : abstract_move) (board : Board P) :
    Except Fault (Board P) := do
  let b := board
  let s ← b.get m.from_.x m.from_.y
  let b ← b.set m.to_.x m.to_.y s
  let b ← b.set m.from_.x m.from_.y ⟨none, color.White⟩
  assert (m.to_.x == m.from_.x) "pawn push_push_to not in straight line"
  let b := { b with en_passant := m.to_.x }
  let b := { b with to_play := flip_color b.to_play }
  return b

/-- Go `func (m pawn_promote) perform_move(board *Board) *Board`. -/
def pawn_promote.perform_move (m : abstract_move) (piece : Option P) (board : Board P) :
    Except Fault (Board P) := do
  let b := board
  let s ← b.get m.from_.x m.from_.y
  let b ← b.set m.to_.x m.to_.y s
  let t ← b.get m.to_.x m.to_.y
  let b ← b.set m.to_.x m.to_.y { t with piece := piece }
  let b ← b.set m.from_.x m.from_.y ⟨none, color.White⟩
  let b := { b with en_passant := -2 }
  let b := { b with to_play := flip_color b.to_play }
  return b

/-- Go `func (m pawn_en_passant) perform_move(board *Board) *Board`. -/
def pawn_en_passant.perform_move (m : abstract_move) (board : Board P) :
    Except Fault (Board P) := do
  let b := board
  let s ← b.get m.from_.x m.from_.y
  let b ← b.set m.to_.x m.to_.y s
  let b ← b.set m.from_.x m.from_.y ⟨none, color.White⟩
  let b ← b.set m.to_.x m.from_.y ⟨none, color.White⟩
  let b := { b with en_passant := -2 }
  let b := { b with to_play := flip_color b.to_play }
  return b

/-- Interface dispatch `m.perform_move(board)`. -/
def move.perform_move (m : move P) (board : Board P) : Except Fault (Board P) :=
  match m with
  | .normal_move a => normal_move.perform_move a board
  | .pawn_push_two a => pawn_push_two.perform_move a board
  | .pawn_promote a q => pawn_promote.perform_move a q board
  | .pawn_en_passant a => pawn_en_passant.perform_move a board

/-- The `from`/`to` pair every move variant embeds (Go struct embedding of
`abstract_move`). -/
def move.abstract (m : move P) : abstract_move :=
  match m with
  | .normal_move a => a
  | .pawn_push_two a => a
  | .pawn_promote a _ => a
  | .pawn_en_passant a => a

/-! ## Move generation -/

/-- Go `is_empty`. -/
def is_empty (board : Board P) (point : xy) : Except Fault Bool := do
  let s ← board.get point.x point.y
  return s.piece.isNone

/-- Go `is_opponent` (`&&` evaluates its right operand only when the left one
is true). -/
def is_opponent (board : Board P) (point : xy) : Except Fault Bool := do
  let s ← board.get point.x point.y
  if s.piece.isSome then
    let t ← board.get point.x point.y
    return decide (t.color ≠ board.to_play)
  else
    return false

/-- Go `append_if_not_in_check`: the check analysis is a TODO, the move is
always appended and the flag is always true. -/
def append_if_not_in_check (_board : Board P) (ms : moves P) (m : move P) :
    moves P × Bool :=
  (ms ++ [m], true)

/-- The body of the loop of Go `list_moves_direction`, started with `n`
iterations to go, that is at `i = 8 - n`. -/
def list_moves_direction_loop (board : Board P) (point offset : xy) (repeat_ : Bool) :
    Nat → moves P → Except Fault (moves P)
  | 0, r => .ok r
  | n + 1, r =>
    let i : Int := 8 - ((n : Int) + 1)
    let to_ : xy := ⟨wrap (point.x + wrap (offset.x * i)), wrap (point.y + wrap (offset.y * i))⟩
    if to_.x < 0 ∨ to_.x ≥ 8 ∨ to_.y < 0 ∨ to_.y ≥ 8 then
      -- we hit the edge of the board
      .ok r
    else do
      -- the condition `piece == nil || color != to_play`
      let s ← board.get to_.x to_.y
      let free ← (if s.piece.isNone then pure true
        else do
          let t ← board.get to_.x to_.y
          pure (decide (t.color ≠ board.to_play)))
      -- `ok` is declared and tested inside the `if` block only
      let (r, ok) :=
        if free then append_if_not_in_check board r (move.normal_move ⟨point, to_⟩)
        else (r, true)
      if !ok then
        -- moving this piece caused a check, so we are done
        .ok r
      else do
        -- the condition `!repeat || piece != nil`
        let stop ← (if !repeat_ then pure true
          else do
            let u ← board.get to_.x to_.y
            pure u.piece.isSome)
        if stop then
          .ok r
        else
          list_moves_direction_loop board point offset repeat_ n r

/-- Go `list_moves_direction`: the loop runs for `i = 1, ..., 7`. -/
def list_moves_direction (r : moves P) (board : Board P) (point offset : xy)
    (repeat_ : Bool) : Except Fault (moves P) :=
  list_moves_direction_loop board point offset repeat_ 7 r

/-- Go `list_moves_common`. -/
def list_moves_common (board : Board P) (point : xy) (offsets : List xy)
    (repeat_ : Bool) : Except Fault (moves P) :=
  offsets.foldlM (fun r offset => list_moves_direction r board point offset repeat_) []

/-! ## Rendering -/

/-- Go's `fmt` verb `%c` on an `int`: the character with that code point,
U+FFFD when the value is not a valid code point. -/
def fmt_c (z : Int) : String :=
  String.singleton
    (if 0 ≤ z ∧ Nat.isValidChar z.toNat then Char.ofNat z.toNat else Char.ofNat 0xFFFD)

/-- Go's `fmt` verb `%d` on an `int`: the decimal digits, with a leading
minus sign for a negative value. -/
def fmt_d (z : Int) : String :=
  if z < 0 then "-" ++ Nat.repr z.natAbs else Nat.repr z.toNat

/-- Go `func (m normal_move) String() string`: the format
`%c%d→%c%d` applied to `'a'+m.from.x`, `m.from.y+1`, `'a'+m.to.x`,
`m.to.y+1` (`'a'` is 97). -/
def normal_move.String (m : abstract_move) : String :=
  fmt_c (wrap (97 + m.from_.x)) ++ fmt_d (wrap (m.from_.y + 1)) ++ "→" ++
    fmt_c (wrap (97 + m.to_.x)) ++ fmt_d (wrap (m.to_.y + 1))

/-- Go `func (m pawn_push_two) String() string`: the same format and
arguments as for a normal move. -/
def pawn_push_two.String (m : abstract_move) : String :=
  fmt_c (wrap (97 + m.from_.x)) ++ fmt_d (wrap (m.from_.y + 1)) ++ "→" ++
    fmt_c (wrap (97 + m.to_.x)) ++ fmt_d (wrap (m.to_.y + 1))

/-- Go `func (m pawn_promote) String() string`: the format `%c%d→%c%d%s`,
whose last argument is `m.piece.String()`. The `String` method of the piece
types is not in `moves.go` and is the parameter `piece_String`; the call
panics when `m.piece` is nil. -/
def pawn_promote.String (piece_String : P → String) (m : abstract_move)
    (piece : Option P) : Except Fault String :=
  match piece with
  | none => .error Fault.nil_dereference
  | some q =>
    .ok (fmt_c (wrap (97 + m.from_.x)) ++ fmt_d (wrap (m.from_.y + 1)) ++ "→" ++
      fmt_c (wrap (97 + m.to_.x)) ++ fmt_d (wrap (m.to_.y + 1)) ++ piece_String q)

/-- Go `func (m pawn_en_passant) String() string`: the format
`%c%d→%c%de.p.`. -/
def pawn_en_passant.String (m : abstract_move) : String :=
  fmt_c (wrap (97 + m.from_.x)) ++ fmt_d (wrap (m.from_.y + 1)) ++ "→" ++
    fmt_c (wrap (97 + m.to_.x)) ++ fmt_d (wrap (m.to_.y + 1)) ++ "e.p."

/-! ## The castle variant -/

/-- Modelled from the spec: the `perform_move` method of `king_castle`, which
is not in `moves.go`. The spec has the castle relocate "both king and rook in
one state transition", where a relocation moves the piece from `from` to `to`
and clears `from`; the en-passant marker "is reset to none by every move
except a double pawn push", and every variant flips the side to move as its
final step. -/
def king_castle.perform_move (m : king_castle) (board : Board P) :
    Except Fault (Board P) := do
  let b := board
  let k ← b.get m.king.from_.x m.king.from_.y
  let b ← b.set m.king.to_.x m.king.to_.y k
  let b ← b.set m.king.from_.x m.king.from_.y ⟨none, color.White⟩
  let r ← b.get m.rook.from_.x m.rook.from_.y
  let b ← b.set m.rook.to_.x m.rook.to_.y r
  let b ← b.set m.rook.from_.x m.rook.from_.y ⟨none, color.White⟩
  let b := { b with en_passant := -2 }
  let b := { b with to_play := flip_color b.to_play }
  return b

/-- Modelled from the spec: the `String` method of `king_castle`, which is
not in `moves.go`. The spec gives every move a rendering "of the form
`<file><rank>→<file><rank>`", with a suffix for promotion and en passant
only; the castle is rendered in that form from the king's pair. -/
def king_castle.String (m : king_castle) : String :=
  fmt_c (wrap (97 + m.king.from_.x)) ++ fmt_d (wrap (m.king.from_.y + 1)) ++ "→" ++
    fmt_c (wrap (97 + m.king.to_.x)) ++ fmt_d (wrap (m.king.to_.y + 1))

/-! ## Vocabulary for the statements about the generator -/

/-- The destination the loop of `list_moves_direction` computes at distance
`i`, in Go `int` arithmetic. -/
def step_to (point offset : xy) (i : Int) : xy :=
  ⟨wrap (point.x + wrap (offset.x * i)), wrap (point.y + wrap (offset.y * i))⟩

/-- The point `p + i*d`, in exact integer arithmetic. -/
def dest (p d : xy) (i : Int) : xy :=
  ⟨p.x + i * d.x, p.y + i * d.y⟩

/-- The square at `q` is on the board and holds no piece. -/
def vacant (b : Board P) (q : xy) : Bool :=
  match b.get q.x q.y with
  | .ok s => s.piece.isNone
  | .error _ => false

/-- The square at `q` is on the board and holds a piece whose colour differs
from the side to move. -/
def holds_opponent (b : Board P) (q : xy) : Bool :=
  match b.get q.x q.y with
  | .ok s => s.piece.isSome && decide (s.color ≠ b.to_play)
  | .error _ => false

/-- The square at `q` is on the board and holds a piece whose colour is the
side to move. -/
def holds_own (b : Board P) (q : xy) : Bool :=
  match b.get q.x q.y with
  | .ok s => s.piece.isSome && decide (s.color = b.to_play)
  | .error _ => false

/-- The square at `q` is on the board and holds a piece. -/
def occupied (b : Board P) (q : xy) : Bool :=
  match b.get q.x q.y with
  | .ok s => s.piece.isSome
  | .error _ => false

/-- The moves one direction contributes when the loop has `n` iterations to
go: the list `list_moves_direction_loop` appends to its accumulator (see
`loop_eq_walk`). -/
def walk (b : Board P) (p d : xy) (repeat_ : Bool) : Nat → moves P
  | 0 => []
  | n + 1 =>
    let q := step_to p d (8 - ((n : Int) + 1))
    if on_board q then
      if vacant b q then
        move.normal_move ⟨p, q⟩ :: (if repeat_ then walk b p d repeat_ n else [])
      else if holds_opponent b q then [move.normal_move ⟨p, q⟩]
      else []
    else []

/-! ## A position for the worked examples -/

/-- Modelled from the spec: the piece kinds of chess; the Go types that
implement the `piece` interface are not in `moves.go`. Used only to
instantiate the piece parameter `P` in the worked examples. -/
inductive chessman where
  | pawn
  | knight
  | bishop
  | rook
  | queen
  | king
  deriving DecidableEq, Repr

/-- Modelled from the spec: the symbol a piece renders as; the `String`
method of the piece types is not in `moves.go`, and the spec only speaks of
a "queen symbol". The figurines below stand in for it in the worked
examples. -/
def chessman.String : chessman → String
  | .pawn => "♙"
  | .knight => "♘"
  | .bishop => "♗"
  | .rook => "♖"
  | .queen => "♕"
  | .king => "♔"

/-- White to move; white pawns on (3,1), (2,4) and (0,6), a white rook on
(0,0), a white king on (2,0), black pawns on (3,4) and (0,3), every other
square empty. -/
def demo_board : Board chessman where
  board := fun i j =>
    if i = 3 ∧ j = 1 then ⟨some chessman.pawn, color.White⟩
    else if i = 2 ∧ j = 4 then ⟨some chessman.pawn, color.White⟩
    else if i = 0 ∧ j = 6 then ⟨some chessman.pawn, color.White⟩
    else if i = 0 ∧ j = 0 then ⟨some chessman.rook, color.White⟩
    else if i = 2 ∧ j = 0 then ⟨some chessman.king, color.White⟩
    else if i = 3 ∧ j = 4 then ⟨some chessman.pawn, color.Black⟩
    else if i = 0 ∧ j = 3 then ⟨some chessman.pawn, color.Black⟩
    else ⟨none, color.White⟩
  to_play := color.White
  en_passant := 3

/-- The example position with a black queen on (0,0) in place of the white
rook and with no en-passant marker. -/
def demo_board_other : Board chessman where
  board := fun i j =>
    if i = 0 ∧ j = 0 then ⟨some chessman.queen, color.Black⟩ else demo_board.board i j
  to_play := color.White
  en_passant := -2

/-- White to move, the white king on (4,0) and a white rook on (7,0), every
other square empty: the position before castling on the king's side. -/
def castle_board : Board chessman where
  board := fun i j =>
    if i = 4 ∧ j = 0 then ⟨some chessman.king, color.White⟩
    else if i = 7 ∧ j = 0 then ⟨some chessman.rook, color.White⟩
    else ⟨none, color.White⟩
  to_play := color.White
  en_passant := -2

/-! ## Basic facts about indexing, reads and writes -/

theorem index_of_bounds {v : Int} (h : 0 ≤ v ∧ v < 8) :
    index v = some ⟨v.toNat, by omega⟩ := by
  unfold index
  rw [dif_pos h]

theorem index_eq_none {v : Int} (h : ¬ (0 ≤ v ∧ v < 8)) : index v = none := by
  unfold index
  rw [dif_neg h]

theorem index_isSome_iff (v : Int) : (index v).isSome ↔ (0 ≤ v ∧ v < 8) := by
  by_cases h : 0 ≤ v ∧ v < 8
  · simp [index_of_bounds h, h]
  · simp [index_eq_none h, h]

theorem index_inj {v w : Int} {i : Fin 8} (hv : index v = some i) (hw : index w = some i) :
    v = w := by
  unfold index at hv hw
  split at hv
  · split at hw
    · simp only [Option.some.injEq] at hv hw
      have h := congrArg Fin.val (hv.trans hw.symm)
      simp only at h
      omega
    · cases hw
  · cases hv

/-- A read at on-board coordinates succeeds. -/
theorem get_ok (b : Board P) {x y : Int} (hx : 0 ≤ x ∧ x < 8) (hy : 0 ≤ y ∧ y < 8) :
    b.get x y = .ok (b.board ⟨x.toNat, by omega⟩ ⟨y.toNat, by omega⟩) := by
  unfold Board.get
  rw [index_of_bounds hx, index_of_bounds hy]

/-- A read succeeds only at on-board coordinates. -/
theorem get_ok_bounds {b : Board P} {x y : Int} {s : square P} (h : b.get x y = .ok s) :
    (0 ≤ x ∧ x < 8) ∧ (0 ≤ y ∧ y < 8) := by
  unfold Board.get at h
  refine ⟨(index_isSome_iff x).1 ?_, (index_isSome_iff y).1 ?_⟩
  · cases hx : index x with
    | none => rw [hx] at h; cases h
    | some i => rfl
  · cases hy : index y with
    | none =>
      rw [hy] at h
      cases hx : index x <;> rw [hx] at h <;> cases h
    | some j => rfl

/-- A write at on-board coordinates succeeds, changes that square only and
leaves the other fields alone. -/
theorem set_ok (b : Board P) {x y : Int} (hx : 0 ≤ x ∧ x < 8) (hy : 0 ≤ y ∧ y < 8)
    (s : square P) :
    ∃ b1, b.set x y s = .ok b1 ∧ b1.to_play = b.to_play ∧ b1.en_passant = b.en_passant ∧
      b1.get x y = .ok s ∧
      ∀ x1 y1, ¬ (x1 = x ∧ y1 = y) → b1.get x1 y1 = b.get x1 y1 := by
  have hi : index x = some ⟨x.toNat, by omega⟩ := index_of_bounds hx
  have hj : index y = some ⟨y.toNat, by omega⟩ := index_of_bounds hy
  generalize (⟨x.toNat, by omega⟩ : Fin 8) = i at hi
  generalize (⟨y.toNat, by omega⟩ : Fin 8) = j at hj
  refine ⟨{ b with board := fun a c => if a = i ∧ c = j then s else b.board a c },
    ?_, rfl, rfl, ?_, ?_⟩
  · unfold Board.set
    rw [hi, hj]
  · unfold Board.get
    rw [hi, hj]
    simp
  · intro x1 y1 hne
    unfold Board.get
    cases h1 : index x1 with
    | none => rfl
    | some i1 =>
      cases h2 : index y1 with
      | none => rfl
      | some j1 =>
        simp only
        have : ¬ (i1 = i ∧ j1 = j) := by
          rintro ⟨hii, hjj⟩
          subst hii; subst hjj
          exact hne ⟨index_inj h1 hi, index_inj h2 hj⟩
        rw [if_neg this]

/-- A write succeeds only at on-board coordinates. -/
theorem set_ok_bounds {b b1 : Board P} {x y : Int} {s : square P} (h : b.set x y s = .ok b1) :
    (0 ≤ x ∧ x < 8) ∧ (0 ≤ y ∧ y < 8) := by
  unfold Board.set at h
  refine ⟨(index_isSome_iff x).1 ?_, (index_isSome_iff y).1 ?_⟩
  · cases hx : index x with
    | none => rw [hx] at h; cases h
    | some i => rfl
  · cases hy : index y with
    | none =>
      rw [hy] at h
      cases hx : index x <;> rw [hx] at h <;> cases h
    | some j => rfl

theorem xy_ne_iff {p q : xy} : p ≠ q ↔ ¬ (p.x = q.x ∧ p.y = q.y) := by
  cases p; cases q; simp

/-! ## Move application: the relocation shared by all variants -/

/-- The two writes every variant starts with: copy `from` to `to`, then
clear `from`. -/
theorem relocate_ok (b : Board P) (m : abstract_move) (hf : on_board m.from_)
    (ht : on_board m.to_) :
    ∃ s b1 b2, b.get m.from_.x m.from_.y = .ok s ∧
      b.set m.to_.x m.to_.y s = .ok b1 ∧
      b1.set m.from_.x m.from_.y ⟨none, color.White⟩ = .ok b2 ∧
      b1.get m.to_.x m.to_.y = .ok s ∧
      b1.to_play = b.to_play ∧
      b2.to_play = b.to_play ∧
      b2.get m.from_.x m.from_.y = .ok ⟨none, color.White⟩ ∧
      (m.from_ ≠ m.to_ → b2.get m.to_.x m.to_.y = .ok s) ∧
      (∀ x y, ¬ (x = m.from_.x ∧ y = m.from_.y) → b2.get x y = b1.get x y) ∧
      (∀ x y, ¬ (x = m.to_.x ∧ y = m.to_.y) → b1.get x y = b.get x y) := by
  obtain ⟨hfx0, hfx1, hfy0, hfy1⟩ := hf
  obtain ⟨htx0, htx1, hty0, hty1⟩ := ht
  obtain ⟨b1, h1, hp1, -, hg1, hfr1⟩ :=
    set_ok b ⟨htx0, htx1⟩ ⟨hty0, hty1⟩ (b.board ⟨m.from_.x.toNat, by omega⟩ ⟨m.from_.y.toNat, by omega⟩)
  obtain ⟨b2, h2, hp2, -, hg2, hfr2⟩ :=
    set_ok b1 ⟨hfx0, hfx1⟩ ⟨hfy0, hfy1⟩ (⟨none, color.White⟩ : square P)
  refine ⟨_, b1, b2, get_ok b ⟨hfx0, hfx1⟩ ⟨hfy0, hfy1⟩, h1, h2, hg1, hp1, hp2.trans hp1, hg2,
    ?_, hfr2, hfr1⟩
  intro hne
  have hne2 : ¬ (m.to_.x = m.from_.x ∧ m.to_.y = m.from_.y) :=
    fun h => xy_ne_iff.1 hne ⟨h.1.symm, h.2.symm⟩
  rw [hfr2 _ _ hne2]
  exact hg1

theorem normal_move_perform_eq {b b1 b2 : Board P} {m : abstract_move} {s : square P}
    (hg : b.get m.from_.x m.from_.y = .ok s) (h1 : b.set m.to_.x m.to_.y s = .ok b1)
    (h2 : b1.set m.from_.x m.from_.y ⟨none, color.White⟩ = .ok b2) :
    normal_move.perform_move m b =
      .ok { b2 with en_passant := -2, to_play := flip_color b2.to_play } := by
  simp only [normal_move.perform_move, hg, h1, h2, bind, Except.bind, pure, Except.pure]

theorem pawn_push_two_perform_eq {b b1 b2 : Board P} {m : abstract_move} {s : square P}
    (hg : b.get m.from_.x m.from_.y = .ok s) (h1 : b.set m.to_.x m.to_.y s = .ok b1)
    (h2 : b1.set m.from_.x m.from_.y ⟨none, color.White⟩ = .ok b2) :
    pawn_push_two.perform_move m b =
      if m.to_.x = m.from_.x then
        .ok { b2 with en_passant := m.to_.x, to_play := flip_color b2.to_play }
      else .error (Fault.assertion "pawn push_push_to not in straight line") := by
  simp only [pawn_push_two.perform_move, hg, h1, h2, bind, Except.bind, pure, Except.pure,
    assert, beq_iff_eq]
  by_cases hx : m.to_.x = m.from_.x
  · rw [if_pos hx, if_pos hx]
  · rw [if_neg hx, if_neg hx]

theorem get_with_fields (b : Board P) (c : color) (e : Int) (x y : Int) :
    Board.get { b with en_passant := e, to_play := c } x y = b.get x y := rfl

/-! ## C1: a normal move and a straight double push relocate the piece -/

/-- C1: for on-board, distinct `from` and `to`, `normal_move.perform_move`
returns a board whose `to` square is the input board's `from` square and
whose `from` square is the empty square `square{nil, White}`; the same holds
for `pawn_push_two.perform_move` when `from.x = to.x`. -/
theorem perform_move_relocates (b : Board P) (m : abstract_move)
    (hf : on_board m.from_) (ht : on_board m.to_) (hne : m.from_ ≠ m.to_) :
    (∃ s b1, b.get m.from_.x m.from_.y = .ok s ∧
        normal_move.perform_move m b = .ok b1 ∧
        b1.get m.to_.x m.to_.y = .ok s ∧
        b1.get m.from_.x m.from_.y = .ok ⟨none, color.White⟩) ∧
    (m.from_.x = m.to_.x →
      ∃ s b1, b.get m.from_.x m.from_.y = .ok s ∧
        pawn_push_two.perform_move m b = .ok b1 ∧
        b1.get m.to_.x m.to_.y = .ok s ∧
        b1.get m.from_.x m.from_.y = .ok ⟨none, color.White⟩) := by
  obtain ⟨s, b1, b2, hg, h1, h2, -, -, -, hfrom, hto, -, -⟩ := relocate_ok b m hf ht
  refine ⟨⟨s, _, hg, normal_move_perform_eq hg h1 h2, ?_, ?_⟩, fun hx =>
    ⟨s, { b2 with en_passant := m.to_.x, to_play := flip_color b2.to_play }, hg, ?_, ?_, ?_⟩⟩
  · rw [get_with_fields]; exact hto hne
  · rw [get_with_fields]; exact hfrom
  · rw [pawn_push_two_perform_eq hg h1 h2, if_pos hx.symm]
  · rw [get_with_fields]; exact hto hne
  · rw [get_with_fields]; exact hfrom

/-- Witness for C1 on the example position: the pawn on (3,1) moves to (3,3). -/
theorem perform_move_relocates_witness :
    on_board (⟨3, 1⟩ : xy) ∧ on_board (⟨3, 3⟩ : xy) ∧
    ∃ s b1, demo_board.get 3 1 = .ok s ∧
      normal_move.perform_move ⟨⟨3, 1⟩, ⟨3, 3⟩⟩ demo_board = .ok b1 ∧
      b1.get 3 3 = .ok s ∧ b1.get 3 1 = .ok ⟨none, color.White⟩ :=
  ⟨by decide, by decide,
    (perform_move_relocates demo_board ⟨⟨3, 1⟩, ⟨3, 3⟩⟩ (by decide) (by decide) (by decide)).1⟩

/-! ## C7: en-passant capture -/

theorem pawn_en_passant_perform_eq {b b1 b2 b3 : Board P} {m : abstract_move} {s : square P}
    (hg : b.get m.from_.x m.from_.y = .ok s) (h1 : b.set m.to_.x m.to_.y s = .ok b1)
    (h2 : b1.set m.from_.x m.from_.y ⟨none, color.White⟩ = .ok b2)
    (h3 : b2.set m.to_.x m.from_.y ⟨none, color.White⟩ = .ok b3) :
    pawn_en_passant.perform_move m b =
      .ok { b3 with en_passant := -2, to_play := flip_color b3.to_play } := by
  simp only [pawn_en_passant.perform_move, hg, h1, h2, h3, bind, Except.bind, pure, Except.pure]

/-- The three writes of the en-passant variant at on-board coordinates. -/
theorem en_passant_ok (b : Board P) (m : abstract_move) (hf : on_board m.from_)
    (ht : on_board m.to_) :
    ∃ (s : square P) (b2 b3 : Board P), b.get m.from_.x m.from_.y = .ok s ∧
      pawn_en_passant.perform_move m b =
        .ok { b3 with en_passant := -2, to_play := flip_color b3.to_play } ∧
      b3.to_play = b.to_play ∧
      b2.get m.from_.x m.from_.y = .ok ⟨none, color.White⟩ ∧
      (m.from_ ≠ m.to_ → b2.get m.to_.x m.to_.y = .ok s) ∧
      b3.get m.to_.x m.from_.y = .ok ⟨none, color.White⟩ ∧
      (∀ x y, ¬ (x = m.to_.x ∧ y = m.from_.y) → b3.get x y = b2.get x y) ∧
      (∀ x y, ¬ (x = m.from_.x ∧ y = m.from_.y) → ¬ (x = m.to_.x ∧ y = m.to_.y) →
        b2.get x y = b.get x y) := by
  obtain ⟨s, b1, b2, hg, h1, h2, -, -, hp2, hfrom, hto, hfr2, hfr1⟩ := relocate_ok b m hf ht
  obtain ⟨b3, h3, hp3, -, hg3, hfr3⟩ :=
    set_ok b2 ⟨ht.1, ht.2.1⟩ ⟨hf.2.2.1, hf.2.2.2⟩ (⟨none, color.White⟩ : square P)
  exact ⟨s, b2, b3, hg, pawn_en_passant_perform_eq hg h1 h2 h3, hp3.trans hp2, hfrom, hto, hg3,
    hfr3, fun x y hxf hxt => (hfr2 x y hxf).trans (hfr1 x y hxt)⟩

/-- C7: for an en-passant move with on-board `from` and `to`, `to.x ≠ from.x`
and `to.y ≠ from.y`, `pawn_en_passant.perform_move` returns a board that has
the input board's `from` square at `to`, the empty square at `from` and the
empty square at `(to.x, from.y)`. -/
theorem pawn_en_passant_captures (b : Board P) (m : abstract_move)
    (hf : on_board m.from_) (ht : on_board m.to_)
    (hx : m.to_.x ≠ m.from_.x) (hy : m.to_.y ≠ m.from_.y) :
    ∃ s b1, b.get m.from_.x m.from_.y = .ok s ∧
      pawn_en_passant.perform_move m b = .ok b1 ∧
      b1.get m.to_.x m.to_.y = .ok s ∧
      b1.get m.from_.x m.from_.y = .ok ⟨none, color.White⟩ ∧
      b1.get m.to_.x m.from_.y = .ok ⟨none, color.White⟩ := by
  obtain ⟨s, b2, b3, hg, hp, -, hfrom, hto, hcap, hfr3, -⟩ := en_passant_ok b m hf ht
  have hne : m.from_ ≠ m.to_ := xy_ne_iff.2 (fun h => hx h.1.symm)
  refine ⟨s, _, hg, hp, ?_, ?_, ?_⟩
  · rw [get_with_fields, hfr3 _ _ (fun h => hy h.2)]
    exact hto hne
  · rw [get_with_fields, hfr3 _ _ (fun h => hx h.1.symm)]
    exact hfrom
  · rw [get_with_fields]
    exact hcap

/-- Witness for C7: the spec's example, the pawn on (2,4) captures en passant
to (3,5) and the pawn on (3,4) disappears. -/
theorem pawn_en_passant_captures_witness :
    demo_board.get 3 4 = .ok ⟨some chessman.pawn, color.Black⟩ ∧
    ∃ s b1, demo_board.get 2 4 = .ok s ∧
      pawn_en_passant.perform_move ⟨⟨2, 4⟩, ⟨3, 5⟩⟩ demo_board = .ok b1 ∧
      b1.get 3 5 = .ok s ∧
      b1.get 2 4 = .ok ⟨none, color.White⟩ ∧
      b1.get 3 4 = .ok ⟨none, color.White⟩ :=
  ⟨rfl,
    pawn_en_passant_captures demo_board ⟨⟨2, 4⟩, ⟨3, 5⟩⟩ (by decide) (by decide) (by decide)
      (by decide)⟩

/-! ## C8: promotion -/

/-- The three writes of the promotion variant at on-board coordinates. -/
theorem pawn_promote_ok (b : Board P) (m : abstract_move) (q : Option P)
    (hf : on_board m.from_) (ht : on_board m.to_) :
    ∃ (s : square P) (b3 : Board P), b.get m.from_.x m.from_.y = .ok s ∧
      pawn_promote.perform_move m q b =
        .ok { b3 with en_passant := -2, to_play := flip_color b3.to_play } ∧
      b3.to_play = b.to_play ∧
      b3.get m.from_.x m.from_.y = .ok ⟨none, color.White⟩ ∧
      (m.from_ ≠ m.to_ → b3.get m.to_.x m.to_.y = .ok ⟨q, s.color⟩) ∧
      (∀ x y, ¬ (x = m.from_.x ∧ y = m.from_.y) → ¬ (x = m.to_.x ∧ y = m.to_.y) →
        b3.get x y = b.get x y) := by
  have hfx : 0 ≤ m.from_.x ∧ m.from_.x < 8 := ⟨hf.1, hf.2.1⟩
  have hfy : 0 ≤ m.from_.y ∧ m.from_.y < 8 := ⟨hf.2.2.1, hf.2.2.2⟩
  have htx : 0 ≤ m.to_.x ∧ m.to_.x < 8 := ⟨ht.1, ht.2.1⟩
  have hty : 0 ≤ m.to_.y ∧ m.to_.y < 8 := ⟨ht.2.2.1, ht.2.2.2⟩
  have hg := get_ok b hfx hfy
  generalize b.board ⟨m.from_.x.toNat, by omega⟩ ⟨m.from_.y.toNat, by omega⟩ = s at hg
  obtain ⟨b1, h1, hp1, -, hg1, hfr1⟩ := set_ok b htx hty s
  obtain ⟨b2, h2, hp2, -, hg2, hfr2⟩ := set_ok b1 htx hty (⟨q, s.color⟩ : square P)
  obtain ⟨b3, h3, hp3, -, hg3, hfr3⟩ := set_ok b2 hfx hfy (⟨none, color.White⟩ : square P)
  refine ⟨s, b3, hg, ?_, hp3.trans (hp2.trans hp1), hg3, ?_, ?_⟩
  · simp only [pawn_promote.perform_move, hg, h1, hg1, h2, h3, bind, Except.bind, pure,
      Except.pure]
  · intro hne
    have hne2 : ¬ (m.to_.x = m.from_.x ∧ m.to_.y = m.from_.y) :=
      fun h => xy_ne_iff.1 hne ⟨h.1.symm, h.2.symm⟩
    rw [hfr3 _ _ hne2]
    exact hg2
  · intro x y hxf hxt
    rw [hfr3 x y hxf, hfr2 x y hxt, hfr1 x y hxt]

/-- C8: for a promotion with on-board, distinct `from` and `to` and any chosen
piece `q`, `pawn_promote.perform_move` returns a board whose `to` square has
piece `q` and the colour of the input board's `from` square, and whose `from`
square is the empty square. -/
theorem pawn_promote_promotes (b : Board P) (m : abstract_move) (q : Option P)
    (hf : on_board m.from_) (ht : on_board m.to_) (hne : m.from_ ≠ m.to_) :
    ∃ s t b1, b.get m.from_.x m.from_.y = .ok s ∧
      pawn_promote.perform_move m q b = .ok b1 ∧
      b1.get m.to_.x m.to_.y = .ok t ∧ t.piece = q ∧ t.color = s.color ∧
      b1.get m.from_.x m.from_.y = .ok ⟨none, color.White⟩ := by
  obtain ⟨s, b3, hg, hp, -, hfrom, hto, -⟩ := pawn_promote_ok b m q hf ht
  refine ⟨s, ⟨q, s.color⟩, _, hg, hp, ?_, rfl, rfl, ?_⟩
  · rw [get_with_fields]
    exact hto hne
  · rw [get_with_fields]
    exact hfrom

/-- Witness for C8: the white pawn on (0,6) promotes to a queen on (0,7). -/
theorem pawn_promote_promotes_witness :
    demo_board.get 0 6 = .ok ⟨some chessman.pawn, color.White⟩ ∧
    ∃ s t b1, demo_board.get 0 6 = .ok s ∧
      pawn_promote.perform_move ⟨⟨0, 6⟩, ⟨0, 7⟩⟩ (some chessman.queen) demo_board = .ok b1 ∧
      b1.get 0 7 = .ok t ∧ t.piece = some chessman.queen ∧ t.color = s.color ∧
      b1.get 0 6 = .ok ⟨none, color.White⟩ :=
  ⟨rfl,
    pawn_promote_promotes demo_board ⟨⟨0, 6⟩, ⟨0, 7⟩⟩ (some chessman.queen) (by decide)
      (by decide) (by decide)⟩

/-! ## C9: which applications fail -/

/-- The double push at on-board coordinates: the relocation succeeds and the
outcome is decided by the assertion. -/
theorem pawn_push_two_ok (b : Board P) (m : abstract_move) (hf : on_board m.from_)
    (ht : on_board m.to_) :
    ∃ b2 : Board P, pawn_push_two.perform_move m b =
      if m.to_.x = m.from_.x then
        .ok { b2 with en_passant := m.to_.x, to_play := flip_color b2.to_play }
      else .error (Fault.assertion "pawn push_push_to not in straight line") := by
  obtain ⟨s, b1, b2, hg, h1, h2, -⟩ := relocate_ok b m hf ht
  exact ⟨b2, pawn_push_two_perform_eq hg h1 h2⟩

/-- The normal move at on-board coordinates succeeds. -/
theorem normal_move_ok (b : Board P) (m : abstract_move) (hf : on_board m.from_)
    (ht : on_board m.to_) :
    ∃ b2 : Board P, normal_move.perform_move m b =
      .ok { b2 with en_passant := -2, to_play := flip_color b2.to_play } := by
  obtain ⟨s, b1, b2, hg, h1, h2, -⟩ := relocate_ok b m hf ht
  exact ⟨b2, normal_move_perform_eq hg h1 h2⟩

/-- C9: with on-board `from` and `to`, `pawn_push_two.perform_move` ends in an
assertion fault exactly when `from.x ≠ to.x`, and returns a board whose
en-passant marker is `to.x` when `from.x = to.x`; the normal, promotion and
en-passant variants return a board. -/
theorem perform_move_faults (b : Board P) (m : abstract_move) (q : Option P)
    (hf : on_board m.from_) (ht : on_board m.to_) :
    ((∃ msg, pawn_push_two.perform_move m b = .error (Fault.assertion msg)) ↔
        m.from_.x ≠ m.to_.x) ∧
    (m.from_.x = m.to_.x →
      ∃ b1, pawn_push_two.perform_move m b = .ok b1 ∧ b1.en_passant = m.to_.x) ∧
    (∃ b1, normal_move.perform_move m b = .ok b1) ∧
    (∃ b1, pawn_promote.perform_move m q b = .ok b1) ∧
    (∃ b1, pawn_en_passant.perform_move m b = .ok b1) := by
  obtain ⟨b2, hp⟩ := pawn_push_two_ok b m hf ht
  refine ⟨⟨?_, ?_⟩, ?_, ?_, ?_, ?_⟩
  · rintro ⟨msg, hmsg⟩ hx
    rw [hp, if_pos hx.symm] at hmsg
    cases hmsg
  · intro hx
    exact ⟨_, by rw [hp, if_neg (fun h => hx h.symm)]⟩
  · intro hx
    exact ⟨_, by rw [hp, if_pos hx.symm], rfl⟩
  · obtain ⟨b3, h⟩ := normal_move_ok b m hf ht
    exact ⟨_, h⟩
  · obtain ⟨s, b3, -, h, -⟩ := pawn_promote_ok b m q hf ht
    exact ⟨_, h⟩
  · obtain ⟨s, b3, b4, -, h, -⟩ := en_passant_ok b m hf ht
    exact ⟨_, h⟩

/-- Witness for C9: the spec's example, the double push from (3,1) to (3,3)
returns a board whose en-passant marker is 3. -/
theorem perform_move_faults_witness :
    on_board (⟨3, 1⟩ : xy) ∧ on_board (⟨3, 3⟩ : xy) ∧
    (∃ b1, pawn_push_two.perform_move ⟨⟨3, 1⟩, ⟨3, 3⟩⟩ demo_board = .ok b1 ∧
      b1.en_passant = 3) ∧
    on_board (⟨4, 3⟩ : xy) ∧
    ∃ msg, pawn_push_two.perform_move ⟨⟨3, 1⟩, ⟨4, 3⟩⟩ demo_board =
      .error (Fault.assertion msg) :=
  ⟨by decide, by decide,
    (perform_move_faults demo_board ⟨⟨3, 1⟩, ⟨3, 3⟩⟩ none (by decide) (by decide)).2.1 rfl,
    by decide,
    (perform_move_faults demo_board ⟨⟨3, 1⟩, ⟨4, 3⟩⟩ none (by decide) (by decide)).1.2
      (by decide)⟩

/-! ## C10: the en-passant marker after a move -/

/-- A successful application implies that `from` and `to` are on the board. -/
theorem perform_move_ok_bounds {b b1 : Board P} {m : move P}
    (h : m.perform_move b = .ok b1) : on_board m.abstract.from_ ∧ on_board m.abstract.to_ := by
  cases m with
  | normal_move a =>
    simp only [move.perform_move, normal_move.perform_move, bind, Except.bind] at h
    split at h
    · cases h
    · rename_i s hg
      split at h
      · cases h
      · rename_i b2 hs
        have h1 := get_ok_bounds hg
        have h2 := set_ok_bounds hs
        exact ⟨⟨h1.1.1, h1.1.2, h1.2.1, h1.2.2⟩, ⟨h2.1.1, h2.1.2, h2.2.1, h2.2.2⟩⟩
  | pawn_push_two a =>
    simp only [move.perform_move, pawn_push_two.perform_move, bind, Except.bind] at h
    split at h
    · cases h
    · rename_i s hg
      split at h
      · cases h
      · rename_i b2 hs
        have h1 := get_ok_bounds hg
        have h2 := set_ok_bounds hs
        exact ⟨⟨h1.1.1, h1.1.2, h1.2.1, h1.2.2⟩, ⟨h2.1.1, h2.1.2, h2.2.1, h2.2.2⟩⟩
  | pawn_promote a q =>
    simp only [move.perform_move, pawn_promote.perform_move, bind, Except.bind] at h
    split at h
    · cases h
    · rename_i s hg
      split at h
      · cases h
      · rename_i b2 hs
        have h1 := get_ok_bounds hg
        have h2 := set_ok_bounds hs
        exact ⟨⟨h1.1.1, h1.1.2, h1.2.1, h1.2.2⟩, ⟨h2.1.1, h2.1.2, h2.2.1, h2.2.2⟩⟩
  | pawn_en_passant a =>
    simp only [move.perform_move, pawn_en_passant.perform_move, bind, Except.bind] at h
    split at h
    · cases h
    · rename_i s hg
      split at h
      · cases h
      · rename_i b2 hs
        have h1 := get_ok_bounds hg
        have h2 := set_ok_bounds hs
        exact ⟨⟨h1.1.1, h1.1.2, h1.2.1, h1.2.2⟩, ⟨h2.1.1, h2.1.2, h2.2.1, h2.2.2⟩⟩

/-- C10: whatever the marker of the input board, a successful application
returns a board whose en-passant marker is `-2` for a normal move, a promotion
and an en-passant capture, and is `to.x = from.x`, a value in `[0,8)`, for a
double pawn push; so the marker of a produced board is `-2` or in `[0,8)`. -/
theorem perform_move_en_passant_marker (b b1 : Board P) (m : move P)
    (h : m.perform_move b = .ok b1) :
    (match m with
      | .pawn_push_two a =>
        b1.en_passant = a.to_.x ∧ a.to_.x = a.from_.x ∧ 0 ≤ a.to_.x ∧ a.to_.x < 8
      | _ => b1.en_passant = -2) ∧
    (b1.en_passant = -2 ∨ (0 ≤ b1.en_passant ∧ b1.en_passant < 8)) := by
  obtain ⟨hf, ht⟩ := perform_move_ok_bounds h
  cases m with
  | normal_move a =>
    obtain ⟨b2, hp⟩ := normal_move_ok b a hf ht
    simp only [move.perform_move, hp, Except.ok.injEq] at h
    subst h
    exact ⟨rfl, Or.inl rfl⟩
  | pawn_push_two a =>
    obtain ⟨b2, hp⟩ := pawn_push_two_ok b a hf ht
    simp only [move.perform_move, hp] at h
    by_cases hx : a.to_.x = a.from_.x
    · rw [if_pos hx, Except.ok.injEq] at h
      subst h
      exact ⟨⟨rfl, hx, ht.1, ht.2.1⟩, Or.inr ⟨ht.1, ht.2.1⟩⟩
    · rw [if_neg hx] at h
      cases h
  | pawn_promote a q =>
    obtain ⟨s, b3, -, hp, -⟩ := pawn_promote_ok b a q hf ht
    simp only [move.perform_move, hp, Except.ok.injEq] at h
    subst h
    exact ⟨rfl, Or.inl rfl⟩
  | pawn_en_passant a =>
    obtain ⟨s, b2, b3, -, hp, -⟩ := en_passant_ok b a hf ht
    simp only [move.perform_move, hp, Except.ok.injEq] at h
    subst h
    exact ⟨rfl, Or.inl rfl⟩

/-- Witness for C10 on the example position, whose marker is 3: a normal move
resets the marker to -2, the double push on file 3 sets it to 3. -/
theorem perform_move_en_passant_marker_witness :
    (∃ b1 : Board chessman,
      move.perform_move (.normal_move ⟨⟨0, 0⟩, ⟨0, 2⟩⟩) demo_board = .ok b1 ∧
      demo_board.en_passant = 3 ∧ b1.en_passant = -2) ∧
    (∃ b1 : Board chessman,
      move.perform_move (.pawn_push_two ⟨⟨3, 1⟩, ⟨3, 3⟩⟩) demo_board = .ok b1 ∧
      b1.en_passant = 3) := by
  obtain ⟨b2, hp⟩ := normal_move_ok demo_board ⟨⟨0, 0⟩, ⟨0, 2⟩⟩ (by decide) (by decide)
  obtain ⟨b3, hq⟩ := pawn_push_two_ok demo_board ⟨⟨3, 1⟩, ⟨3, 3⟩⟩ (by decide) (by decide)
  rw [if_pos rfl] at hq
  exact ⟨⟨_, hp, rfl, (perform_move_en_passant_marker demo_board _ (.normal_move _) hp).1⟩,
    ⟨_, hq, (perform_move_en_passant_marker demo_board _ (.pawn_push_two _) hq).1.1⟩⟩

/-! ## The generator loop computes `walk` -/

theorem on_board_iff (q : xy) :
    on_board q ↔ ¬ (q.x < 0 ∨ q.x ≥ 8 ∨ q.y < 0 ∨ q.y ≥ 8) := by
  unfold on_board
  omega

/-- The loop never faults: it returns its accumulator followed by `walk`. -/
theorem loop_eq_walk (b : Board P) (p d : xy) (rep : Bool) (n : Nat) (r : moves P) :
    list_moves_direction_loop b p d rep n r = .ok (r ++ walk b p d rep n) := by
  induction n generalizing r with
  | zero => simp [list_moves_direction_loop, walk]
  | succ n ih =>
    rw [list_moves_direction_loop, walk]
    simp only []
    by_cases hq : on_board (step_to p d (8 - ((n : Int) + 1)))
    · have hq2 := (on_board_iff _).1 hq
      have hg := get_ok b ⟨hq.1, hq.2.1⟩ ⟨hq.2.2.1, hq.2.2.2⟩
      generalize b.board _ _ = s at hg
      rw [if_pos hq]
      simp only [step_to] at hq2 hg
      simp only [step_to, if_neg hq2, hg, vacant, holds_opponent, bind, Except.bind, pure,
        Except.pure, append_if_not_in_check]
      obtain ⟨pc, cl⟩ := s
      cases pc with
      | none =>
        cases rep
        · simp
        · simp [ih]
      | some pc =>
        by_cases hc : cl = b.to_play
        · cases rep <;> simp [hc]
        · cases rep <;> simp [hc]
    · have hq2 : ¬ ¬ (_ ∨ _ ∨ _ ∨ _) := fun h => hq ((on_board_iff _).2 h)
      rw [if_neg hq]
      simp only [step_to] at hq2
      rw [if_pos (not_not.1 hq2)]
      simp

/-- One direction never faults and keeps the moves it was given as a prefix. -/
theorem list_moves_direction_eq (r : moves P) (b : Board P) (p d : xy) (rep : Bool) :
    list_moves_direction r b p d rep = .ok (r ++ walk b p d rep 7) :=
  loop_eq_walk b p d rep 7 r

theorem foldlM_direction_eq (b : Board P) (p : xy) (rep : Bool) (offsets : List xy)
    (r : moves P) :
    offsets.foldlM (fun r offset => list_moves_direction r b p offset rep) r =
      .ok (r ++ offsets.flatMap (fun d => walk b p d rep 7)) := by
  induction offsets generalizing r with
  | nil => simp [pure, Except.pure]
  | cons d ds ih =>
    rw [List.foldlM_cons, list_moves_direction_eq]
    simp only [bind, Except.bind]
    rw [ih]
    simp

/-- The generator never faults: it is the concatenation of the directions. -/
theorem list_moves_common_eq (b : Board P) (p : xy) (offsets : List xy) (rep : Bool) :
    list_moves_common b p offsets rep =
      .ok (offsets.flatMap (fun d => walk b p d rep 7)) := by
  unfold list_moves_common
  rw [foldlM_direction_eq]
  simp

/-! ## Facts about `walk` -/

theorem walk_succ (b : Board P) (p d : xy) (rep : Bool) (n : Nat) :
    walk b p d rep (n + 1) =
      if on_board (step_to p d (8 - ((n : Int) + 1))) then
        if vacant b (step_to p d (8 - ((n : Int) + 1))) then
          move.normal_move ⟨p, step_to p d (8 - ((n : Int) + 1))⟩ ::
            (if rep then walk b p d rep n else [])
        else if holds_opponent b (step_to p d (8 - ((n : Int) + 1))) then
          [move.normal_move ⟨p, step_to p d (8 - ((n : Int) + 1))⟩]
        else []
      else [] := by
  rw [walk]

/-- Every generated move is a normal move from the origin to an on-board
square. -/
theorem walk_sound (b : Board P) (p d : xy) (rep : Bool) (n : Nat) :
    ∀ m ∈ walk b p d rep n, ∃ q, m = move.normal_move ⟨p, q⟩ ∧ on_board q := by
  induction n with
  | zero => intro m hm; simp [walk] at hm
  | succ n ih =>
    intro m hm
    rw [walk_succ] at hm
    split at hm
    · rename_i hq
      split at hm
      · rcases List.mem_cons.1 hm with h | h
        · exact ⟨_, h, hq⟩
        · cases rep
          · simp at h
          · exact ih m h
      · split at hm
        · exact ⟨_, List.mem_singleton.1 hm, hq⟩
        · simp at hm
    · simp at hm

/-! ## C3: generated destinations are on the board -/

/-- C3: for every board, origin, offset list and repeat flag,
`list_moves_common` returns a list in which every move is a normal move whose
`from` is the origin and whose destination has `0 ≤ x < 8` and `0 ≤ y < 8`. -/
theorem list_moves_common_on_board (b : Board P) (p : xy) (offsets : List xy) (rep : Bool) :
    ∃ ms, list_moves_common b p offsets rep = .ok ms ∧
      ∀ m ∈ ms, ∃ q : xy, m = move.normal_move ⟨p, q⟩ ∧
        0 ≤ q.x ∧ q.x < 8 ∧ 0 ≤ q.y ∧ q.y < 8 := by
  refine ⟨_, list_moves_common_eq b p offsets rep, ?_⟩
  intro m hm
  obtain ⟨d, -, hd⟩ := List.mem_flatMap.1 hm
  exact walk_sound b p d rep 7 m hd

/-! ## Go arithmetic agrees with exact arithmetic on the board -/

/-- From an on-board origin, once the first step is on the board (in either
arithmetic) the offset is small and no step of the loop overflows. -/
theorem step_to_eq_dest {p d : xy} (hp : on_board p) (hdx : is_int d.x) (hdy : is_int d.y)
    (h1 : on_board (step_to p d 1) ∨ on_board (dest p d 1)) (i : Int)
    (hi1 : 1 ≤ i) (hi7 : i ≤ 7) : step_to p d i = dest p d i := by
  obtain ⟨px, py⟩ := p
  obtain ⟨dx, dy⟩ := d
  simp only [on_board, step_to, dest, wrap, is_int] at *
  have hx : -7 ≤ dx ∧ dx ≤ 7 := by omega
  have hy : -7 ≤ dy ∧ dy ≤ 7 := by omega
  rw [xy.mk.injEq]
  interval_cases i <;> omega

/-- Distinct distances along a non-zero offset give distinct points. -/
theorem dest_inj {p d : xy} (hd : d ≠ ⟨0, 0⟩) {i j : Int} (h : dest p d i = dest p d j) :
    i = j := by
  obtain ⟨dx, dy⟩ := d
  simp only [dest, xy.mk.injEq, add_right_inj] at h
  by_contra hij
  have hsub : i - j ≠ 0 := sub_ne_zero.2 hij
  apply hd
  have hx : (i - j) * dx = 0 := by rw [sub_mul, h.1, sub_self]
  have hy : (i - j) * dy = 0 := by rw [sub_mul, h.2, sub_self]
  rw [xy.mk.injEq]
  exact ⟨(mul_eq_zero.1 hx).resolve_left hsub, (mul_eq_zero.1 hy).resolve_left hsub⟩

/-! ## The exact content of a sliding direction -/

/-- Membership in a sliding walk with `n` iterations to go, by the index `i`
of the step counted from the first of them. -/
theorem mem_walk (b : Board P) (p d : xy) (n : Nat) (m : move P) :
    m ∈ walk b p d true n ↔
      ∃ i : Nat, i < n ∧ m = move.normal_move ⟨p, step_to p d (8 - (n : Int) + (i : Int))⟩ ∧
        (∀ j : Nat, j ≤ i → on_board (step_to p d (8 - (n : Int) + (j : Int)))) ∧
        (∀ j : Nat, j < i → vacant b (step_to p d (8 - (n : Int) + (j : Int))) = true) ∧
        (vacant b (step_to p d (8 - (n : Int) + (i : Int))) = true ∨
          holds_opponent b (step_to p d (8 - (n : Int) + (i : Int))) = true) := by
  induction n with
  | zero => simp [walk]
  | succ n ih =>
    have e0 : (8 : Int) - ((n + 1 : Nat) : Int) + ((0 : Nat) : Int) = 8 - ((n : Int) + 1) := by
      push_cast; ring
    have es : ∀ j : Nat, (8 : Int) - ((n + 1 : Nat) : Int) + ((j + 1 : Nat) : Int)
        = 8 - (n : Int) + (j : Int) := by
      intro j; push_cast; ring
    rw [walk_succ]
    constructor
    · intro hm
      by_cases hq : on_board (step_to p d (8 - ((n : Int) + 1)))
      · rw [if_pos hq] at hm
        by_cases hv : vacant b (step_to p d (8 - ((n : Int) + 1))) = true
        · rw [if_pos hv, if_pos rfl] at hm
          rcases List.mem_cons.1 hm with h | h
          · refine ⟨0, Nat.succ_pos n, ?_, ?_, ?_, ?_⟩
            · rw [e0]; exact h
            · intro j hj
              obtain rfl : j = 0 := by omega
              rw [e0]; exact hq
            · intro j hj; omega
            · rw [e0]; exact Or.inl hv
          · obtain ⟨i, hi, hmi, hon, hvac, hlast⟩ := ih.1 h
            refine ⟨i + 1, by omega, ?_, ?_, ?_, ?_⟩
            · rw [es]; exact hmi
            · intro j hj
              cases j with
              | zero => rw [e0]; exact hq
              | succ j => rw [es]; exact hon j (by omega)
            · intro j hj
              cases j with
              | zero => rw [e0]; exact hv
              | succ j => rw [es]; exact hvac j (by omega)
            · rw [es]; exact hlast
        · rw [if_neg hv] at hm
          by_cases ho : holds_opponent b (step_to p d (8 - ((n : Int) + 1))) = true
          · rw [if_pos ho] at hm
            refine ⟨0, Nat.succ_pos n, ?_, ?_, ?_, ?_⟩
            · rw [e0]; exact List.mem_singleton.1 hm
            · intro j hj
              obtain rfl : j = 0 := by omega
              rw [e0]; exact hq
            · intro j hj; omega
            · rw [e0]; exact Or.inr ho
          · rw [if_neg ho] at hm
            simp at hm
      · rw [if_neg hq] at hm
        simp at hm
    · rintro ⟨i, hi, hmi, hon, hvac, hlast⟩
      have hq : on_board (step_to p d (8 - ((n : Int) + 1))) := by
        have := hon 0 (Nat.zero_le _)
        rwa [e0] at this
      rw [if_pos hq]
      cases i with
      | zero =>
        rw [e0] at hmi hlast
        subst hmi
        by_cases hv : vacant b (step_to p d (8 - ((n : Int) + 1))) = true
        · rw [if_pos hv]
          exact List.mem_cons_self _ _
        · rw [if_neg hv, if_pos (hlast.resolve_left hv)]
          exact List.mem_singleton_self _
      | succ i =>
        have hv : vacant b (step_to p d (8 - ((n : Int) + 1))) = true := by
          have := hvac 0 (Nat.succ_pos _)
          rwa [e0] at this
        rw [if_pos hv, if_pos rfl]
        refine List.mem_cons_of_mem _ (ih.2 ⟨i, by omega, ?_, ?_, ?_, ?_⟩)
        · rw [← es]; exact hmi
        · intro j hj
          rw [← es]; exact hon (j + 1) (by omega)
        · intro j hj
          rw [← es]; exact hvac (j + 1) (by omega)
        · rw [← es]; exact hlast

/-- Membership in a whole sliding direction, by the distance `i`. -/
theorem mem_walk_seven (b : Board P) (p d : xy) (m : move P) :
    m ∈ walk b p d true 7 ↔
      ∃ i : Nat, 1 ≤ i ∧ i ≤ 7 ∧ m = move.normal_move ⟨p, step_to p d (i : Int)⟩ ∧
        (∀ j : Nat, 1 ≤ j → j ≤ i → on_board (step_to p d (j : Int))) ∧
        (∀ j : Nat, 1 ≤ j → j < i → vacant b (step_to p d (j : Int)) = true) ∧
        (vacant b (step_to p d (i : Int)) = true ∨
          holds_opponent b (step_to p d (i : Int)) = true) := by
  have e : ∀ j : Nat, (8 : Int) - ((7 : Nat) : Int) + (j : Int) = ((j + 1 : Nat) : Int) := by
    intro j; push_cast; ring
  rw [mem_walk]
  constructor
  · rintro ⟨i, hi, hm, hon, hvac, hlast⟩
    refine ⟨i + 1, by omega, by omega, ?_, ?_, ?_, ?_⟩
    · rw [← e]; exact hm
    · intro j hj1 hj
      obtain ⟨j, rfl⟩ : ∃ k, j = k + 1 := ⟨j - 1, by omega⟩
      rw [← e]; exact hon j (by omega)
    · intro j hj1 hj
      obtain ⟨j, rfl⟩ : ∃ k, j = k + 1 := ⟨j - 1, by omega⟩
      rw [← e]; exact hvac j (by omega)
    · rw [← e]; exact hlast
  · rintro ⟨i, hi1, hi7, hm, hon, hvac, hlast⟩
    obtain ⟨i, rfl⟩ : ∃ k, i = k + 1 := ⟨i - 1, by omega⟩
    refine ⟨i, by omega, ?_, ?_, ?_, ?_⟩
    · rw [e]; exact hm
    · intro j hj
      rw [e]; exact hon (j + 1) (by omega) (by omega)
    · intro j hj
      rw [e]; exact hvac (j + 1) (by omega) (by omega)
    · rw [e]; exact hlast

/-- The same, from an on-board origin, in exact arithmetic. -/
theorem mem_walk_dest (b : Board P) {p d : xy} (hp : on_board p) (hdx : is_int d.x)
    (hdy : is_int d.y) (m : move P) :
    m ∈ walk b p d true 7 ↔
      ∃ i : Nat, 1 ≤ i ∧ i ≤ 7 ∧ m = move.normal_move ⟨p, dest p d (i : Int)⟩ ∧
        (∀ j : Nat, 1 ≤ j → j ≤ i → on_board (dest p d (j : Int))) ∧
        (∀ j : Nat, 1 ≤ j → j < i → vacant b (dest p d (j : Int)) = true) ∧
        (vacant b (dest p d (i : Int)) = true ∨
          holds_opponent b (dest p d (i : Int)) = true) := by
  have hsd : (on_board (step_to p d 1) ∨ on_board (dest p d 1)) →
      ∀ j : Nat, 1 ≤ j → j ≤ 7 → step_to p d (j : Int) = dest p d (j : Int) :=
    fun h1 j hj1 hj7 =>
      step_to_eq_dest hp hdx hdy h1 j (by exact_mod_cast hj1) (by exact_mod_cast hj7)
  rw [mem_walk_seven]
  constructor
  · rintro ⟨i, hi1, hi7, hm, hon, hvac, hlast⟩
    have h1 : on_board (step_to p d 1) := by
      have := hon 1 (le_refl 1) hi1
      simpa using this
    have hs := hsd (Or.inl h1)
    refine ⟨i, hi1, hi7, ?_, ?_, ?_, ?_⟩
    · rw [← hs i hi1 hi7]; exact hm
    · intro j hj1 hj
      rw [← hs j hj1 (by omega)]; exact hon j hj1 hj
    · intro j hj1 hj
      rw [← hs j hj1 (by omega)]; exact hvac j hj1 hj
    · rw [← hs i hi1 hi7]; exact hlast
  · rintro ⟨i, hi1, hi7, hm, hon, hvac, hlast⟩
    have h1 : on_board (dest p d 1) := by
      have := hon 1 (le_refl 1) hi1
      simpa using this
    have hs := hsd (Or.inr h1)
    refine ⟨i, hi1, hi7, ?_, ?_, ?_, ?_⟩
    · rw [hs i hi1 hi7]; exact hm
    · intro j hj1 hj
      rw [hs j hj1 (by omega)]; exact hon j hj1 hj
    · intro j hj1 hj
      rw [hs j hj1 (by omega)]; exact hvac j hj1 hj
    · rw [hs i hi1 hi7]; exact hlast

/-! ## C2: the exact reachable set of a sliding direction -/

/-- C2: from an on-board origin `p`, along a non-zero offset `d` with
`repeat = true`, the list returned by `list_moves_direction` (started from the
empty list) contains the normal move `p → p+i*d`, for `i` in `1..7`, exactly
when every `p+j*d` with `1 ≤ j ≤ i` is on the board, every `p+j*d` with
`1 ≤ j < i` is empty, and `p+i*d` is empty or holds a piece whose colour
differs from the side to move; and every move of the list is such a move. -/
theorem sliding_walk_exact (b : Board P) (p d : xy) (hp : on_board p) (hd : d ≠ ⟨0, 0⟩)
    (hdx : is_int d.x) (hdy : is_int d.y) :
    ∃ ms, list_moves_direction [] b p d true = .ok ms ∧
      (∀ i : Nat, 1 ≤ i → i ≤ 7 →
        (move.normal_move ⟨p, dest p d (i : Int)⟩ ∈ ms ↔
          (∀ j : Nat, 1 ≤ j → j ≤ i → on_board (dest p d (j : Int))) ∧
          (∀ j : Nat, 1 ≤ j → j < i → vacant b (dest p d (j : Int)) = true) ∧
          (vacant b (dest p d (i : Int)) = true ∨
            holds_opponent b (dest p d (i : Int)) = true))) ∧
      (∀ m ∈ ms, ∃ i : Nat, 1 ≤ i ∧ i ≤ 7 ∧ m = move.normal_move ⟨p, dest p d (i : Int)⟩) := by
  refine ⟨_, list_moves_direction_eq [] b p d true, ?_, ?_⟩
  · intro i hi1 hi7
    rw [List.nil_append, mem_walk_dest b hp hdx hdy]
    constructor
    · rintro ⟨k, hk1, hk7, hm, hon, hvac, hlast⟩
      have hik : (i : Int) = (k : Int) := by
        apply dest_inj hd (p := p)
        simpa using hm
      have : i = k := by exact_mod_cast hik
      subst this
      exact ⟨hon, hvac, hlast⟩
    · rintro ⟨hon, hvac, hlast⟩
      exact ⟨i, hi1, hi7, rfl, hon, hvac, hlast⟩
  · intro m hm
    rw [List.nil_append, mem_walk_dest b hp hdx hdy] at hm
    obtain ⟨i, hi1, hi7, hmi, -⟩ := hm
    exact ⟨i, hi1, hi7, hmi⟩

/-- Witness for C2 on the example position: the rook on (0,0) slides up file
0 over two empty squares and takes the black pawn on (0,3). -/
theorem sliding_walk_exact_witness :
    on_board (⟨0, 0⟩ : xy) ∧
    list_moves_direction [] demo_board ⟨0, 0⟩ ⟨0, 1⟩ true =
      .ok [move.normal_move ⟨⟨0, 0⟩, ⟨0, 1⟩⟩, move.normal_move ⟨⟨0, 0⟩, ⟨0, 2⟩⟩,
        move.normal_move ⟨⟨0, 0⟩, ⟨0, 3⟩⟩] ∧
    ∃ ms, list_moves_direction [] demo_board ⟨0, 0⟩ ⟨0, 1⟩ true = .ok ms ∧
      (∀ i : Nat, 1 ≤ i → i ≤ 7 →
        (move.normal_move ⟨⟨0, 0⟩, dest ⟨0, 0⟩ ⟨0, 1⟩ (i : Int)⟩ ∈ ms ↔
          (∀ j : Nat, 1 ≤ j → j ≤ i → on_board (dest ⟨0, 0⟩ ⟨0, 1⟩ (j : Int))) ∧
          (∀ j : Nat, 1 ≤ j → j < i →
            vacant demo_board (dest ⟨0, 0⟩ ⟨0, 1⟩ (j : Int)) = true) ∧
          (vacant demo_board (dest ⟨0, 0⟩ ⟨0, 1⟩ (i : Int)) = true ∨
            holds_opponent demo_board (dest ⟨0, 0⟩ ⟨0, 1⟩ (i : Int)) = true))) ∧
      (∀ m ∈ ms, ∃ i : Nat, 1 ≤ i ∧ i ≤ 7 ∧
        m = move.normal_move ⟨⟨0, 0⟩, dest ⟨0, 0⟩ ⟨0, 1⟩ (i : Int)⟩) :=
  ⟨by decide, rfl,
    sliding_walk_exact demo_board ⟨0, 0⟩ ⟨0, 1⟩ (by decide) (by decide) (by decide)
      (by decide)⟩

/-! ## The shape of a sliding direction up to its first occupied square -/

theorem vacant_not_occupied {b : Board P} {q : xy} (h : vacant b q = true) :
    occupied b q = false := by
  unfold vacant at h
  unfold occupied
  split at h
  · rename_i s hs
    cases hp : s.piece <;> simp_all
  · cases h

theorem occupied_not_vacant {b : Board P} {q : xy} (h : occupied b q = true) :
    vacant b q = false := by
  unfold occupied at h
  unfold vacant
  split at h
  · rename_i s hs
    cases hp : s.piece <;> simp_all
  · cases h

theorem holds_opponent_occupied {b : Board P} {q : xy} (h : holds_opponent b q = true) :
    occupied b q = true := by
  unfold holds_opponent at h
  unfold occupied
  split at h
  · simp only [Bool.and_eq_true] at h
    exact h.1
  · cases h

theorem holds_own_occupied {b : Board P} {q : xy} (h : holds_own b q = true) :
    occupied b q = true ∧ holds_opponent b q = false := by
  unfold holds_own at h
  unfold occupied holds_opponent
  split at h
  · simp only [Bool.and_eq_true, decide_eq_true_eq] at h
    simp [h.1, h.2]
  · cases h

/-- While the squares are on the board and empty the walk records them and
goes on. -/
theorem walk_while_vacant (b : Board P) (p d : xy) (n t : Nat) (ht : t ≤ n)
    (hv : ∀ j : Nat, j < t → on_board (step_to p d (8 - (n : Int) + (j : Int))) ∧
      vacant b (step_to p d (8 - (n : Int) + (j : Int))) = true) :
    walk b p d true n =
      (List.range t).map
          (fun j : Nat => move.normal_move ⟨p, step_to p d (8 - (n : Int) + (j : Int))⟩) ++
        walk b p d true (n - t) := by
  induction n generalizing t with
  | zero =>
    obtain rfl : t = 0 := by omega
    simp
  | succ n ih =>
    cases t with
    | zero => simp
    | succ t =>
      have e0 : (8 : Int) - ((n + 1 : Nat) : Int) + ((0 : Nat) : Int) = 8 - ((n : Int) + 1) := by
        push_cast; ring
      have es : ∀ j : Nat, (8 : Int) - ((n + 1 : Nat) : Int) + ((j + 1 : Nat) : Int)
          = 8 - (n : Int) + (j : Int) := by
        intro j; push_cast; ring
      have h0 := hv 0 (Nat.succ_pos t)
      rw [e0] at h0
      rw [walk_succ, if_pos h0.1, if_pos h0.2, if_pos rfl,
        ih t (by omega) (fun j hj => by rw [← es]; exact hv (j + 1) (by omega)),
        List.range_succ_eq_map, List.map_cons, List.map_map, e0, Nat.add_sub_add_right,
        List.cons_append]
      congr 2
      apply List.map_congr_left
      intro j _
      simp only [Function.comp, Nat.succ_eq_add_one]
      rw [es]

/-- An on-board point at distance `k` from an on-board origin along a
non-zero offset has `k ≤ 7`. -/
theorem dist_le_seven {p d : xy} (hp : on_board p) (hd : d ≠ ⟨0, 0⟩) (k : Nat)
    (hk : on_board (dest p d (k : Int))) : k ≤ 7 := by
  obtain ⟨px, py⟩ := p
  obtain ⟨dx, dy⟩ := d
  simp only [on_board, dest] at hp hk
  by_contra hcon
  have hk8 : (8 : Int) ≤ (k : Int) := by exact_mod_cast Nat.lt_of_not_le hcon
  have hdne : dx ≠ 0 ∨ dy ≠ 0 := by
    by_contra h
    push_neg at h
    exact hd (by rw [h.1, h.2])
  rcases hdne with h | h
  · rcases lt_or_gt_of_ne h with hneg | hpos
    · have : (k : Int) * dx ≤ -8 := by nlinarith
      omega
    · have : (8 : Int) ≤ (k : Int) * dx := by nlinarith
      omega
  · rcases lt_or_gt_of_ne h with hneg | hpos
    · have : (k : Int) * dy ≤ -8 := by nlinarith
      omega
    · have : (8 : Int) ≤ (k : Int) * dy := by nlinarith
      omega

/-- The whole direction when the first occupied square is at distance `k`:
the `k-1` empty squares before it, then the capture if it holds an opponent
piece. -/
theorem walk_first_occupied (b : Board P) {p d : xy} (hp : on_board p) (hdx : is_int d.x)
    (hdy : is_int d.y) (k : Nat) (hk1 : 1 ≤ k) (hk7 : k ≤ 7)
    (hfree : ∀ j : Nat, 1 ≤ j → j < k →
      on_board (dest p d (j : Int)) ∧ vacant b (dest p d (j : Int)) = true)
    (hk : on_board (dest p d (k : Int))) (hocc : occupied b (dest p d (k : Int)) = true) :
    walk b p d true 7 =
      (List.range (k - 1)).map
          (fun j : Nat => move.normal_move ⟨p, dest p d ((j + 1 : Nat) : Int)⟩) ++
        (if holds_opponent b (dest p d (k : Int)) = true then
          [move.normal_move ⟨p, dest p d (k : Int)⟩] else []) := by
  have h1 : on_board (dest p d 1) := by
    by_cases hk' : k = 1
    · subst hk'
      simpa using hk
    · have := (hfree 1 (le_refl 1) (by omega)).1
      simpa using this
  have hs : ∀ j : Nat, 1 ≤ j → j ≤ 7 → step_to p d (j : Int) = dest p d (j : Int) :=
    fun j hj1 hj7 =>
      step_to_eq_dest hp hdx hdy (Or.inr h1) j (by exact_mod_cast hj1) (by exact_mod_cast hj7)
  have e : ∀ j : Nat, (8 : Int) - ((7 : Nat) : Int) + (j : Int) = ((j + 1 : Nat) : Int) := by
    intro j; push_cast; ring
  have hv : ∀ j : Nat, j < k - 1 →
      on_board (step_to p d (8 - ((7 : Nat) : Int) + (j : Int))) ∧
      vacant b (step_to p d (8 - ((7 : Nat) : Int) + (j : Int))) = true := by
    intro j hj
    rw [e, hs (j + 1) (by omega) (by omega)]
    exact hfree (j + 1) (by omega) (by omega)
  have hrem : 7 - (k - 1) = (7 - k) + 1 := by omega
  have ek : (8 : Int) - (((7 - k : Nat) : Int) + 1) = (k : Int) := by omega
  rw [walk_while_vacant b p d 7 (k - 1) (by omega) hv, hrem, walk_succ, ek, hs k hk1 hk7, if_pos hk,
    occupied_not_vacant hocc]
  simp only [Bool.false_eq_true, if_false]
  congr 1
  apply List.map_congr_left
  intro j hj
  have hj' : j < k - 1 := List.mem_range.1 hj
  rw [e, hs (j + 1) (by omega) (by omega)]

/-- Every move of a direction whose first occupied square is at distance `k`
goes to a square at distance at most `k`. -/
theorem walk_first_occupied_mem (b : Board P) {p d : xy} (hp : on_board p) (hdx : is_int d.x)
    (hdy : is_int d.y) (k : Nat) (hk1 : 1 ≤ k) (hk7 : k ≤ 7)
    (hfree : ∀ j : Nat, 1 ≤ j → j < k →
      on_board (dest p d (j : Int)) ∧ vacant b (dest p d (j : Int)) = true)
    (hk : on_board (dest p d (k : Int))) (hocc : occupied b (dest p d (k : Int)) = true)
    (m : move P) (hm : m ∈ walk b p d true 7) :
    ∃ i : Nat, 1 ≤ i ∧ m = move.normal_move ⟨p, dest p d (i : Int)⟩ ∧
      (i < k ∨ (i = k ∧ holds_opponent b (dest p d (k : Int)) = true)) := by
  rw [walk_first_occupied b hp hdx hdy k hk1 hk7 hfree hk hocc] at hm
  rcases List.mem_append.1 hm with h | h
  · obtain ⟨j, hj, rfl⟩ := List.mem_map.1 h
    have hj' : j < k - 1 := List.mem_range.1 hj
    exact ⟨j + 1, by omega, rfl, Or.inl (by omega)⟩
  · by_cases ho : holds_opponent b (dest p d (k : Int)) = true
    · rw [if_pos ho] at h
      exact ⟨k, hk1, List.mem_singleton.1 h, Or.inr ⟨rfl, ho⟩⟩
    · rw [if_neg ho] at h
      simp at h

/-! ## C4: a capture ends the direction -/

/-- C4: from an on-board origin along a non-zero offset with `repeat = true`,
if `p+k*d` is the first occupied square of the direction (on the board, all
nearer squares on the board and empty), the returned list has no move to
`p+j*d` for any `j > k`; and if the piece on `p+k*d` is of the other colour
than the side to move, the moves whose destination is occupied are exactly the
one move `p → p+k*d`, which is the last move of the list. -/
theorem capture_stops_walk (b : Board P) (p d : xy) (hp : on_board p) (hd : d ≠ ⟨0, 0⟩)
    (hdx : is_int d.x) (hdy : is_int d.y) (k : Nat) (hk1 : 1 ≤ k)
    (hfree : ∀ j : Nat, 1 ≤ j → j < k →
      on_board (dest p d (j : Int)) ∧ vacant b (dest p d (j : Int)) = true)
    (hk : on_board (dest p d (k : Int))) (hocc : occupied b (dest p d (k : Int)) = true) :
    ∃ ms, list_moves_direction [] b p d true = .ok ms ∧
      (∀ j : Nat, k < j → ∀ m ∈ ms, m.abstract.to_ ≠ dest p d (j : Int)) ∧
      (holds_opponent b (dest p d (k : Int)) = true →
        ms.filter (fun m => occupied b m.abstract.to_) =
          [move.normal_move ⟨p, dest p d (k : Int)⟩] ∧
        ms.getLast? = some (move.normal_move ⟨p, dest p d (k : Int)⟩)) := by
  have hk7 : k ≤ 7 := dist_le_seven hp hd k hk
  refine ⟨_, list_moves_direction_eq [] b p d true, ?_, ?_⟩
  · intro j hj m hm hto
    rw [List.nil_append] at hm
    obtain ⟨i, hi1, rfl, hik⟩ :=
      walk_first_occupied_mem b hp hdx hdy k hk1 hk7 hfree hk hocc m hm
    have hij : (i : Int) = (j : Int) := dest_inj hd hto
    have : i = j := by exact_mod_cast hij
    omega
  · intro ho
    rw [List.nil_append, walk_first_occupied b hp hdx hdy k hk1 hk7 hfree hk hocc, if_pos ho]
    refine ⟨?_, List.getLast?_concat _⟩
    rw [List.filter_append]
    have hpre : List.filter (fun m : move P => occupied b m.abstract.to_)
        ((List.range (k - 1)).map
          (fun j : Nat => move.normal_move ⟨p, dest p d ((j + 1 : Nat) : Int)⟩)) = [] := by
      rw [List.filter_eq_nil_iff]
      intro a ha
      obtain ⟨j, hj, rfl⟩ := List.mem_map.1 ha
      have hj' : j < k - 1 := List.mem_range.1 hj
      have hvac := (hfree (j + 1) (by omega) (by omega)).2
      simp only [move.abstract]
      rw [vacant_not_occupied hvac]
      simp
    rw [hpre, List.nil_append, List.filter_singleton]
    simp only [move.abstract, hocc, cond_true]

/-- Witness for C4 on the example position: up file 0 from the rook on (0,0)
the first occupied square is (0,3), at distance 3, and holds a black pawn. -/
theorem capture_stops_walk_witness :
    on_board (⟨0, 0⟩ : xy) ∧ occupied demo_board ⟨0, 3⟩ = true ∧
    holds_opponent demo_board ⟨0, 3⟩ = true ∧
    ∃ ms, list_moves_direction [] demo_board ⟨0, 0⟩ ⟨0, 1⟩ true = .ok ms ∧
      (∀ j : Nat, 3 < j → ∀ m ∈ ms, m.abstract.to_ ≠ dest ⟨0, 0⟩ ⟨0, 1⟩ (j : Int)) ∧
      (holds_opponent demo_board (dest ⟨0, 0⟩ ⟨0, 1⟩ ((3 : Nat) : Int)) = true →
        ms.filter (fun m => occupied demo_board m.abstract.to_) =
          [move.normal_move ⟨⟨0, 0⟩, dest ⟨0, 0⟩ ⟨0, 1⟩ ((3 : Nat) : Int)⟩] ∧
        ms.getLast? = some (move.normal_move ⟨⟨0, 0⟩, dest ⟨0, 0⟩ ⟨0, 1⟩ ((3 : Nat) : Int)⟩)) :=
  ⟨by decide, rfl, rfl,
    capture_stops_walk demo_board ⟨0, 0⟩ ⟨0, 1⟩ (by decide) (by decide) (by decide) (by decide)
      3 (by decide)
      (fun j h1 h3 => by interval_cases j <;> exact ⟨by decide, rfl⟩)
      (by decide) rfl⟩

/-! ## C5: an own piece blocks the direction -/

/-- C5: from an on-board origin along a non-zero offset with `repeat = true`,
if the first occupied square `p+k*d` of the direction holds a piece of the
side to move, the returned list is exactly the moves to `p+1*d`, ...,
`p+(k-1)*d`, it has no move to `p+j*d` for any `j ≥ k`, and it is empty when
`k = 1`. -/
theorem own_piece_blocks_walk (b : Board P) (p d : xy) (hp : on_board p) (hd : d ≠ ⟨0, 0⟩)
    (hdx : is_int d.x) (hdy : is_int d.y) (k : Nat) (hk1 : 1 ≤ k)
    (hfree : ∀ j : Nat, 1 ≤ j → j < k →
      on_board (dest p d (j : Int)) ∧ vacant b (dest p d (j : Int)) = true)
    (hk : on_board (dest p d (k : Int))) (hown : holds_own b (dest p d (k : Int)) = true) :
    ∃ ms, list_moves_direction [] b p d true = .ok ms ∧
      ms = (List.range (k - 1)).map
        (fun j : Nat => move.normal_move ⟨p, dest p d ((j + 1 : Nat) : Int)⟩) ∧
      (∀ j : Nat, k ≤ j → ∀ m ∈ ms, m.abstract.to_ ≠ dest p d (j : Int)) ∧
      (k = 1 → ms = []) := by
  have hk7 : k ≤ 7 := dist_le_seven hp hd k hk
  obtain ⟨hocc, hno⟩ := holds_own_occupied hown
  have hshape := walk_first_occupied b hp hdx hdy k hk1 hk7 hfree hk hocc
  rw [hno] at hshape
  simp only [Bool.false_eq_true, if_false, List.append_nil] at hshape
  refine ⟨_, list_moves_direction_eq [] b p d true, ?_, ?_, ?_⟩
  · rw [List.nil_append, hshape]
  · intro j hj m hm hto
    rw [List.nil_append] at hm
    obtain ⟨i, hi1, rfl, hik⟩ :=
      walk_first_occupied_mem b hp hdx hdy k hk1 hk7 hfree hk hocc m hm
    have hij : (i : Int) = (j : Int) := dest_inj hd hto
    have : i = j := by exact_mod_cast hij
    rcases hik with h | ⟨-, h⟩
    · omega
    · rw [hno] at h
      cases h
  · intro hk'
    subst hk'
    rw [List.nil_append, hshape]
    rfl

/-- Witness for C5 on the example position: along rank 0 from the rook on
(0,0) the first occupied square is (2,0), which holds the white king, so the
only move is to (1,0). -/
theorem own_piece_blocks_walk_witness :
    on_board (⟨0, 0⟩ : xy) ∧ holds_own demo_board ⟨2, 0⟩ = true ∧
    list_moves_direction [] demo_board ⟨0, 0⟩ ⟨1, 0⟩ true =
      .ok [move.normal_move ⟨⟨0, 0⟩, ⟨1, 0⟩⟩] ∧
    ∃ ms, list_moves_direction [] demo_board ⟨0, 0⟩ ⟨1, 0⟩ true = .ok ms ∧
      ms = (List.range (2 - 1)).map
        (fun j : Nat => move.normal_move ⟨⟨0, 0⟩, dest ⟨0, 0⟩ ⟨1, 0⟩ ((j + 1 : Nat) : Int)⟩) ∧
      (∀ j : Nat, 2 ≤ j → ∀ m ∈ ms, m.abstract.to_ ≠ dest ⟨0, 0⟩ ⟨1, 0⟩ (j : Int)) ∧
      (2 = 1 → ms = []) :=
  ⟨by decide, rfl, rfl,
    own_piece_blocks_walk demo_board ⟨0, 0⟩ ⟨1, 0⟩ (by decide) (by decide) (by decide)
      (by decide) 2 (by decide)
      (fun j h1 h2 => by interval_cases j; exact ⟨by decide, rfl⟩)
      (by decide) rfl⟩

/-! ## C6: stepping pieces take one step -/

/-- With `repeat = false` a direction is its first step, if that step is
taken. -/
theorem walk_stepping (b : Board P) {p d : xy} (hp : on_board p) (hdx : is_int d.x)
    (hdy : is_int d.y) :
    walk b p d false 7 =
      if on_board (dest p d 1) ∧
          (vacant b (dest p d 1) = true ∨ holds_opponent b (dest p d 1) = true) then
        [move.normal_move ⟨p, dest p d 1⟩]
      else [] := by
  have e1 : (8 : Int) - (((6 : Nat) : Int) + 1) = 1 := by norm_num
  rw [walk_succ, e1]
  by_cases hq : on_board (step_to p d 1)
  · have hs : step_to p d 1 = dest p d 1 :=
      step_to_eq_dest hp hdx hdy (Or.inl hq) 1 (le_refl 1) (by norm_num)
    rw [hs] at hq ⊢
    rw [if_pos hq]
    by_cases hv : vacant b (dest p d 1) = true
    · have hc : on_board (dest p d 1) ∧
          (vacant b (dest p d 1) = true ∨ holds_opponent b (dest p d 1) = true) :=
        ⟨hq, Or.inl hv⟩
      rw [if_pos hv, if_pos hc]
      simp
    · rw [if_neg hv]
      by_cases ho : holds_opponent b (dest p d 1) = true
      · have hc : on_board (dest p d 1) ∧
            (vacant b (dest p d 1) = true ∨ holds_opponent b (dest p d 1) = true) :=
          ⟨hq, Or.inr ho⟩
        rw [if_pos ho, if_pos hc]
      · have hc : ¬ (on_board (dest p d 1) ∧
            (vacant b (dest p d 1) = true ∨ holds_opponent b (dest p d 1) = true)) :=
          fun h => h.2.elim hv ho
        rw [if_neg ho, if_neg hc]
  · have hq2 : ¬ on_board (dest p d 1) := by
      intro h
      have hs : step_to p d 1 = dest p d 1 :=
        step_to_eq_dest hp hdx hdy (Or.inr h) 1 (le_refl 1) (by norm_num)
      exact hq (hs ▸ h)
    have hc : ¬ (on_board (dest p d 1) ∧
        (vacant b (dest p d 1) = true ∨ holds_opponent b (dest p d 1) = true)) :=
      fun h => hq2 h.1
    rw [if_neg hq, if_neg hc]

/-- C6: from an on-board origin with `repeat = false`, `list_moves_direction`
(started from the empty list) returns the one-element list `[p → p+d]` when
`p+d` is on the board and is empty or holds a piece of the other colour than
the side to move, and the empty list otherwise; hence `list_moves_common` with
`repeat = false` returns at most one move per offset, each to `p+d` for an
offset `d` of the table. -/
theorem stepping_walk_one_step (b : Board P) (p d : xy) (hp : on_board p)
    (hdx : is_int d.x) (hdy : is_int d.y) :
    list_moves_direction [] b p d false =
      .ok (if on_board (dest p d 1) ∧
            (vacant b (dest p d 1) = true ∨ holds_opponent b (dest p d 1) = true) then
          [move.normal_move ⟨p, dest p d 1⟩]
        else []) ∧
    ∀ offsets : List xy, (∀ o ∈ offsets, is_int o.x ∧ is_int o.y) →
      ∃ ms, list_moves_common b p offsets false = .ok ms ∧
        ms.length ≤ offsets.length ∧
        ∀ m ∈ ms, ∃ o ∈ offsets, m = move.normal_move ⟨p, dest p o 1⟩ := by
  refine ⟨?_, ?_⟩
  · rw [list_moves_direction_eq, List.nil_append, walk_stepping b hp hdx hdy]
  · intro offsets hoff
    refine ⟨_, list_moves_common_eq b p offsets false, ?_, ?_⟩
    · induction offsets with
      | nil => simp
      | cons o os ih =>
        have ho := hoff o (List.mem_cons_self _ _)
        have hlen : (walk b p o false 7).length ≤ 1 := by
          rw [walk_stepping b hp ho.1 ho.2]
          split <;> simp
        have := ih (fun o' h' => hoff o' (List.mem_cons_of_mem _ h'))
        rw [List.flatMap_cons, List.length_append, List.length_cons]
        omega
    · intro m hm
      obtain ⟨o, ho, hmo⟩ := List.mem_flatMap.1 hm
      have hoi := hoff o ho
      rw [walk_stepping b hp hoi.1 hoi.2] at hmo
      split at hmo
      · exact ⟨o, ho, List.mem_singleton.1 hmo⟩
      · simp at hmo

/-- Witness for C6 on the example position: the king on (2,0) steps to the
empty square (1,0), and only there in that direction. -/
theorem stepping_walk_one_step_witness :
    on_board (⟨2, 0⟩ : xy) ∧
    list_moves_direction [] demo_board ⟨2, 0⟩ ⟨-1, 0⟩ false =
      .ok [move.normal_move ⟨⟨2, 0⟩, ⟨1, 0⟩⟩] ∧
    list_moves_direction [] demo_board ⟨2, 0⟩ ⟨-1, 0⟩ false =
      .ok (if on_board (dest ⟨2, 0⟩ ⟨-1, 0⟩ 1) ∧
            (vacant demo_board (dest ⟨2, 0⟩ ⟨-1, 0⟩ 1) = true ∨
              holds_opponent demo_board (dest ⟨2, 0⟩ ⟨-1, 0⟩ 1) = true) then
          [move.normal_move ⟨⟨2, 0⟩, dest ⟨2, 0⟩ ⟨-1, 0⟩ 1⟩]
        else []) :=
  ⟨by decide, rfl,
    (stepping_walk_one_step demo_board ⟨2, 0⟩ ⟨-1, 0⟩ (by decide) (by decide) (by decide)).1⟩

/-! ## C11: every move flips the side to move -/

/-- What a successful application returns, variant by variant: the side to
move is flipped, and a square other than `from`, `to` and (en-passant capture
only) `(to.x, from.y)` reads as before. -/
theorem perform_move_effect (b b1 : Board P) (m : move P) (h : m.perform_move b = .ok b1) :
    b1.to_play = flip_color b.to_play ∧
    ∀ x y, ¬ (x = m.abstract.from_.x ∧ y = m.abstract.from_.y) →
      ¬ (x = m.abstract.to_.x ∧ y = m.abstract.to_.y) →
      (∀ a, m = .pawn_en_passant a → ¬ (x = a.to_.x ∧ y = a.from_.y)) →
      b1.get x y = b.get x y := by
  obtain ⟨hf, ht⟩ := perform_move_ok_bounds h
  cases m with
  | normal_move a =>
    obtain ⟨s, b2, b3, hg, h1, h2, -, -, hp, -, -, hfr2, hfr1⟩ := relocate_ok b a hf ht
    simp only [move.perform_move, normal_move_perform_eq hg h1 h2, Except.ok.injEq] at h
    subst h
    refine ⟨by simp only [hp], fun x y hxf hxt _ => ?_⟩
    rw [get_with_fields, hfr2 x y hxf, hfr1 x y hxt]
  | pawn_push_two a =>
    obtain ⟨s, b2, b3, hg, h1, h2, -, -, hp, -, -, hfr2, hfr1⟩ := relocate_ok b a hf ht
    simp only [move.perform_move, pawn_push_two_perform_eq hg h1 h2] at h
    by_cases hx : a.to_.x = a.from_.x
    · rw [if_pos hx, Except.ok.injEq] at h
      subst h
      refine ⟨by simp only [hp], fun x y hxf hxt _ => ?_⟩
      rw [get_with_fields, hfr2 x y hxf, hfr1 x y hxt]
    · rw [if_neg hx] at h
      cases h
  | pawn_promote a q =>
    obtain ⟨s, b3, -, hpe, hp, -, -, hfr⟩ := pawn_promote_ok b a q hf ht
    simp only [move.perform_move, hpe, Except.ok.injEq] at h
    subst h
    refine ⟨by simp only [hp], fun x y hxf hxt _ => ?_⟩
    rw [get_with_fields, hfr x y hxf hxt]
  | pawn_en_passant a =>
    obtain ⟨s, b2, b3, -, hpe, hp, -, -, -, hfr3, hfr⟩ := en_passant_ok b a hf ht
    simp only [move.perform_move, hpe, Except.ok.injEq] at h
    subst h
    refine ⟨by simp only [hp], fun x y hxf hxt hcap => ?_⟩
    rw [get_with_fields, hfr3 x y (hcap a rfl), hfr x y hxf hxt]

theorem flip_color_ne (c : color) : flip_color c ≠ c := by
  cases c <;> decide

/-- C11: a successful application of a normal move, a double push, a promotion
or an en-passant capture returns a board whose side to move is
`flip_color(b.to_play)`: Black when White was to move, White when Black was,
hence never the side that was to move. -/
theorem perform_move_flips_side (b b1 : Board P) (m : move P)
    (h : m.perform_move b = .ok b1) :
    b1.to_play = flip_color b.to_play ∧
    (b.to_play = color.White → b1.to_play = color.Black) ∧
    (b.to_play = color.Black → b1.to_play = color.White) ∧
    b1.to_play ≠ b.to_play := by
  have hflip := (perform_move_effect b b1 m h).1
  refine ⟨hflip, ?_, ?_, ?_⟩
  · intro hw
    rw [hflip, hw]
    rfl
  · intro hb
    rw [hflip, hb]
    rfl
  · rw [hflip]
    exact flip_color_ne b.to_play

/-- Witness for C11 on the example position, where White is to move: after
the en-passant capture from (2,4) to (3,5) Black is to move. -/
theorem perform_move_flips_side_witness :
    demo_board.to_play = color.White ∧
    ∃ b1 : Board chessman,
      move.perform_move (.pawn_en_passant ⟨⟨2, 4⟩, ⟨3, 5⟩⟩) demo_board = .ok b1 ∧
      b1.to_play = color.Black := by
  obtain ⟨s, b2, b3, -, hp, -⟩ :=
    en_passant_ok demo_board ⟨⟨2, 4⟩, ⟨3, 5⟩⟩ (by decide) (by decide)
  exact ⟨rfl, _, hp,
    (perform_move_flips_side demo_board _ (.pawn_en_passant ⟨⟨2, 4⟩, ⟨3, 5⟩⟩) hp).2.1 rfl⟩

/-! ## C17: the frame of a move -/

/-- C17: a normal move, a double push with `from.x = to.x`, a promotion and an
en-passant capture with on-board coordinates return a board in which every
square other than `from`, `to` and (en-passant capture only) `(to.x, from.y)`
is the square of the input board. -/
theorem perform_move_frame (b : Board P) (m : move P)
    (hf : on_board m.abstract.from_) (ht : on_board m.abstract.to_)
    (hs : ∀ a, m = .pawn_push_two a → a.from_.x = a.to_.x) :
    ∃ b1, m.perform_move b = .ok b1 ∧
      ∀ q : xy, q ≠ m.abstract.from_ → q ≠ m.abstract.to_ →
        (∀ a, m = .pawn_en_passant a → q ≠ ⟨a.to_.x, a.from_.y⟩) →
        b1.get q.x q.y = b.get q.x q.y := by
  have hok : ∃ b1, m.perform_move b = .ok b1 := by
    cases m with
    | normal_move a =>
      obtain ⟨b2, hp⟩ := normal_move_ok b a hf ht
      exact ⟨_, hp⟩
    | pawn_push_two a =>
      obtain ⟨b2, hp⟩ := pawn_push_two_ok b a hf ht
      rw [if_pos (hs a rfl).symm] at hp
      exact ⟨_, hp⟩
    | pawn_promote a q =>
      obtain ⟨s, b3, -, hp, -⟩ := pawn_promote_ok b a q hf ht
      exact ⟨_, hp⟩
    | pawn_en_passant a =>
      obtain ⟨s, b2, b3, -, hp, -⟩ := en_passant_ok b a hf ht
      exact ⟨_, hp⟩
  obtain ⟨b1, hb1⟩ := hok
  refine ⟨b1, hb1, fun q hqf hqt hcap => ?_⟩
  exact (perform_move_effect b b1 m hb1).2 q.x q.y (xy_ne_iff.1 hqf) (xy_ne_iff.1 hqt)
    (fun a ha => xy_ne_iff.1 (hcap a ha))

/-- Witness for C17 on the example position: the en-passant capture from
(2,4) to (3,5) leaves the rook on (0,0) where it was. -/
theorem perform_move_frame_witness :
    on_board (⟨2, 4⟩ : xy) ∧ on_board (⟨3, 5⟩ : xy) ∧
    ∃ b1 : Board chessman,
      move.perform_move (.pawn_en_passant ⟨⟨2, 4⟩, ⟨3, 5⟩⟩) demo_board = .ok b1 ∧
      b1.get 0 0 = .ok ⟨some chessman.rook, color.White⟩ := by
  obtain ⟨b1, hp, hfr⟩ := perform_move_frame demo_board
    (.pawn_en_passant ⟨⟨2, 4⟩, ⟨3, 5⟩⟩) (by decide) (by decide) (fun a ha => by cases ha)
  refine ⟨by decide, by decide, b1, hp, ?_⟩
  have h := hfr ⟨0, 0⟩ (by decide) (by decide) (fun a ha => by
    cases ha
    decide)
  exact h.trans rfl

/-! ## Rendering of on-board coordinates -/

/-- The verb `%c` on `'a'+x` for an on-board file `x`. -/
theorem fmt_c_file {x : Int} (h0 : 0 ≤ x) (h8 : x < 8) :
    fmt_c (wrap (97 + x)) = String.singleton (Char.ofNat (97 + x.toNat)) := by
  interval_cases x <;> rfl

/-- The verb `%d` on `y+1` for an on-board rank `y`. -/
theorem fmt_d_rank {y : Int} (h0 : 0 ≤ y) (h8 : y < 8) :
    fmt_d (wrap (y + 1)) = String.singleton (Char.ofNat (49 + y.toNat)) := by
  interval_cases y <;> rfl

theorem file_char_toNat {x : Int} (h0 : 0 ≤ x) (h8 : x < 8) :
    (Char.ofNat (97 + x.toNat)).toNat = 97 + x.toNat := by
  interval_cases x <;> rfl

theorem rank_char_toNat {y : Int} (h0 : 0 ≤ y) (h8 : y < 8) :
    (Char.ofNat (49 + y.toNat)).toNat = 49 + y.toNat := by
  interval_cases y <;> rfl

theorem file_char_mem {x : Int} (h0 : 0 ≤ x) (h8 : x < 8) :
    Char.ofNat (97 + x.toNat) ∈ ['a', 'b', 'c', 'd', 'e', 'f', 'g', 'h'] := by
  interval_cases x <;> decide

theorem rank_char_mem {y : Int} (h0 : 0 ≤ y) (h8 : y < 8) :
    Char.ofNat (49 + y.toNat) ∈ ['1', '2', '3', '4', '5', '6', '7', '8'] := by
  interval_cases y <;> decide

/-- The rendering of a normal move with on-board coordinates, character by
character. -/
theorem normal_move_String_eq (m : abstract_move) (hf : on_board m.from_)
    (ht : on_board m.to_) :
    normal_move.String m =
      String.mk [Char.ofNat (97 + m.from_.x.toNat), Char.ofNat (49 + m.from_.y.toNat), '→',
        Char.ofNat (97 + m.to_.x.toNat), Char.ofNat (49 + m.to_.y.toNat)] := by
  unfold normal_move.String
  rw [fmt_c_file hf.1 hf.2.1, fmt_d_rank hf.2.2.1 hf.2.2.2, fmt_c_file ht.1 ht.2.1,
    fmt_d_rank ht.2.2.1 ht.2.2.2]
  rfl

/-! ## C13: the rendering of a normal move -/

/-- C13: for on-board `from` and `to`, `normal_move.String()` is exactly five
characters: the letter `'a'+from.x` (one of a..h), the digit `from.y+1` (one
of 1..8), the arrow, the letter `'a'+to.x` and the digit `to.y+1`. -/
theorem normal_move_String_five (m : abstract_move) (hf : on_board m.from_)
    (ht : on_board m.to_) :
    normal_move.String m =
      String.mk [Char.ofNat (97 + m.from_.x.toNat), Char.ofNat (49 + m.from_.y.toNat), '→',
        Char.ofNat (97 + m.to_.x.toNat), Char.ofNat (49 + m.to_.y.toNat)] ∧
    (normal_move.String m).length = 5 ∧
    Char.ofNat (97 + m.from_.x.toNat) ∈ ['a', 'b', 'c', 'd', 'e', 'f', 'g', 'h'] ∧
    Char.ofNat (49 + m.from_.y.toNat) ∈ ['1', '2', '3', '4', '5', '6', '7', '8'] ∧
    Char.ofNat (97 + m.to_.x.toNat) ∈ ['a', 'b', 'c', 'd', 'e', 'f', 'g', 'h'] ∧
    Char.ofNat (49 + m.to_.y.toNat) ∈ ['1', '2', '3', '4', '5', '6', '7', '8'] := by
  have h := normal_move_String_eq m hf ht
  refine ⟨h, ?_, file_char_mem hf.1 hf.2.1, rank_char_mem hf.2.2.1 hf.2.2.2,
    file_char_mem ht.1 ht.2.1, rank_char_mem ht.2.2.1 ht.2.2.2⟩
  rw [h]
  rfl

/-- Witness for C13: the spec's example, the move from (0,0) to (1,1) renders
as `a1→b2`. -/
theorem normal_move_String_five_witness :
    on_board (⟨0, 0⟩ : xy) ∧ on_board (⟨1, 1⟩ : xy) ∧
    normal_move.String ⟨⟨0, 0⟩, ⟨1, 1⟩⟩ = "a1→b2" ∧
    (normal_move.String ⟨⟨0, 0⟩, ⟨1, 1⟩⟩).length = 5 :=
  ⟨by decide, by decide,
    (normal_move_String_five ⟨⟨0, 0⟩, ⟨1, 1⟩⟩ (by decide) (by decide)).1.trans rfl,
    (normal_move_String_five ⟨⟨0, 0⟩, ⟨1, 1⟩⟩ (by decide) (by decide)).2.1⟩

/-! ## C14: the suffixes of the other renderings -/

/-- C14: for every `from`/`to` pair and every piece `q`,
`pawn_promote.String()` is the normal-move rendering followed by `q.String()`,
`pawn_en_passant.String()` is the normal-move rendering followed by `e.p.`,
and `pawn_push_two.String()` is the normal-move rendering. -/
theorem String_suffixes (piece_String : P → String) (m : abstract_move) (q : P) :
    pawn_promote.String piece_String m (some q) =
      .ok (normal_move.String m ++ piece_String q) ∧
    pawn_en_passant.String m = normal_move.String m ++ "e.p." ∧
    pawn_push_two.String m = normal_move.String m := by
  refine ⟨?_, ?_, ?_⟩
  · unfold pawn_promote.String normal_move.String
    rfl
  · unfold pawn_en_passant.String normal_move.String
    rfl
  · unfold pawn_push_two.String normal_move.String
    rfl

/-- Witness for C14: the spec's example, the promotion to a queen from (0,6)
to (0,7) renders as `a7→a8` followed by the queen symbol, and an en-passant
capture ends in `e.p.`. -/
theorem String_suffixes_witness :
    pawn_promote.String chessman.String ⟨⟨0, 6⟩, ⟨0, 7⟩⟩ (some chessman.queen) =
      .ok ("a7→a8" ++ chessman.String chessman.queen) ∧
    pawn_en_passant.String ⟨⟨2, 4⟩, ⟨3, 5⟩⟩ = "c5→d6e.p." :=
  ⟨(String_suffixes chessman.String ⟨⟨0, 6⟩, ⟨0, 7⟩⟩ chessman.queen).1.trans rfl,
    (String_suffixes chessman.String ⟨⟨2, 4⟩, ⟨3, 5⟩⟩ chessman.queen).2.1.trans rfl⟩

/-! ## C20: the rendering of normal moves is injective on the board -/

/-- C20: two normal moves with on-board coordinates whose `String()` results
are equal have the same `from` and the same `to`. -/
theorem normal_move_String_injective (m1 m2 : abstract_move)
    (hf1 : on_board m1.from_) (ht1 : on_board m1.to_)
    (hf2 : on_board m2.from_) (ht2 : on_board m2.to_)
    (h : normal_move.String m1 = normal_move.String m2) :
    m1.from_ = m2.from_ ∧ m1.to_ = m2.to_ := by
  rw [normal_move_String_eq m1 hf1 ht1, normal_move_String_eq m2 hf2 ht2] at h
  have hl := congrArg String.data h
  simp only [List.cons.injEq, and_true, true_and] at hl
  obtain ⟨h1, h2, h3, h4⟩ := hl
  have e1 := congrArg Char.toNat h1
  have e2 := congrArg Char.toNat h2
  have e3 := congrArg Char.toNat h3
  have e4 := congrArg Char.toNat h4
  rw [file_char_toNat hf1.1 hf1.2.1, file_char_toNat hf2.1 hf2.2.1] at e1
  rw [rank_char_toNat hf1.2.2.1 hf1.2.2.2, rank_char_toNat hf2.2.2.1 hf2.2.2.2] at e2
  rw [file_char_toNat ht1.1 ht1.2.1, file_char_toNat ht2.1 ht2.2.1] at e3
  rw [rank_char_toNat ht1.2.2.1 ht1.2.2.2, rank_char_toNat ht2.2.2.1 ht2.2.2.2] at e4
  obtain ⟨⟨x1, y1⟩, ⟨u1, v1⟩⟩ := m1
  obtain ⟨⟨x2, y2⟩, ⟨u2, v2⟩⟩ := m2
  simp only [on_board] at hf1 ht1 hf2 ht2
  simp only at e1 e2 e3 e4
  rw [xy.mk.injEq, xy.mk.injEq]
  omega

/-- Witness for C20: the rendering `a1→b2` belongs to the move from (0,0) to
(1,1). -/
theorem normal_move_String_injective_witness :
    normal_move.String ⟨⟨0, 0⟩, ⟨1, 1⟩⟩ = normal_move.String ⟨⟨0, 0⟩, ⟨1, 1⟩⟩ ∧
    normal_move.String ⟨⟨0, 0⟩, ⟨1, 1⟩⟩ ≠ normal_move.String ⟨⟨1, 1⟩, ⟨0, 0⟩⟩ ∧
    ((⟨0, 0⟩ : xy) = ⟨0, 0⟩ ∧ (⟨1, 1⟩ : xy) = ⟨1, 1⟩) :=
  ⟨rfl, by decide,
    normal_move_String_injective ⟨⟨0, 0⟩, ⟨1, 1⟩⟩ ⟨⟨0, 0⟩, ⟨1, 1⟩⟩ (by decide) (by decide)
      (by decide) (by decide) rfl⟩

/-! ## More facts about `walk`, for either value of the repeat flag -/

/-- A direction holds at most as many moves as the loop has iterations. -/
theorem walk_length_le (b : Board P) (p d : xy) (rep : Bool) (n : Nat) :
    (walk b p d rep n).length ≤ n := by
  induction n with
  | zero => simp [walk]
  | succ n ih =>
    rw [walk_succ]
    split
    · split
      · cases rep
        · simp
        · simp only [if_true, List.length_cons]
          omega
      · split <;> simp
    · simp

/-- The move at position `k` of a direction is the one the loop builds in its
iteration number `k`. -/
theorem walk_getElem (b : Board P) (p d : xy) (rep : Bool) (n k : Nat)
    (hk : k < (walk b p d rep n).length) :
    (walk b p d rep n)[k]? =
      some (move.normal_move ⟨p, step_to p d (8 - (n : Int) + (k : Int))⟩) := by
  induction n generalizing k with
  | zero => simp [walk] at hk
  | succ n ih =>
    have e0 : (8 : Int) - ((n + 1 : Nat) : Int) + ((0 : Nat) : Int) = 8 - ((n : Int) + 1) := by
      push_cast; ring
    have es : ∀ j : Nat, (8 : Int) - ((n + 1 : Nat) : Int) + ((j + 1 : Nat) : Int)
        = 8 - (n : Int) + (j : Int) := by
      intro j; push_cast; ring
    rw [walk_succ] at hk ⊢
    split at hk
    · rename_i hq
      rw [if_pos hq]
      split at hk
      · rename_i hv
        rw [if_pos hv]
        cases k with
        | zero => rw [e0, List.getElem?_cons_zero]
        | succ k =>
          cases rep
          · simp at hk
          · simp only [if_true, List.length_cons, Nat.add_lt_add_iff_right] at hk
            simp only [if_true, List.getElem?_cons_succ]
            rw [es]
            exact ih k hk
      · rename_i hv
        rw [if_neg hv]
        split at hk
        · rename_i ho
          rw [if_pos ho]
          cases k with
          | zero => rw [e0, List.getElem?_cons_zero]
          | succ k => simp at hk
        · simp at hk
    · simp at hk

/-- A move of a direction comes from an on-board first step and goes to an
on-board square that is empty or holds a piece of the other colour. -/
theorem walk_mem_free (b : Board P) (p d : xy) (rep : Bool) (n : Nat) (m : move P)
    (hm : m ∈ walk b p d rep n) :
    ∃ i : Nat, i < n ∧ m = move.normal_move ⟨p, step_to p d (8 - (n : Int) + (i : Int))⟩ ∧
      on_board (step_to p d (8 - (n : Int) + ((0 : Nat) : Int))) ∧
      on_board (step_to p d (8 - (n : Int) + (i : Int))) ∧
      (vacant b (step_to p d (8 - (n : Int) + (i : Int))) = true ∨
        holds_opponent b (step_to p d (8 - (n : Int) + (i : Int))) = true) := by
  induction n with
  | zero => simp [walk] at hm
  | succ n ih =>
    have e0 : (8 : Int) - ((n + 1 : Nat) : Int) + ((0 : Nat) : Int) = 8 - ((n : Int) + 1) := by
      push_cast; ring
    have es : ∀ j : Nat, (8 : Int) - ((n + 1 : Nat) : Int) + ((j + 1 : Nat) : Int)
        = 8 - (n : Int) + (j : Int) := by
      intro j; push_cast; ring
    rw [walk_succ] at hm
    split at hm
    · rename_i hq
      split at hm
      · rename_i hv
        rcases List.mem_cons.1 hm with h | h
        · refine ⟨0, Nat.succ_pos n, ?_, ?_, ?_, ?_⟩
          · rw [e0]; exact h
          · rw [e0]; exact hq
          · rw [e0]; exact hq
          · rw [e0]; exact Or.inl hv
        · cases rep
          · simp at h
          · obtain ⟨i, hi, hmi, -, hon, hfree⟩ := ih h
            refine ⟨i + 1, by omega, ?_, ?_, ?_, ?_⟩
            · rw [es]; exact hmi
            · rw [e0]; exact hq
            · rw [es]; exact hon
            · rw [es]; exact hfree
      · split at hm
        · rename_i ho
          refine ⟨0, Nat.succ_pos n, ?_, ?_, ?_, ?_⟩
          · rw [e0]; exact List.mem_singleton.1 hm
          · rw [e0]; exact hq
          · rw [e0]; exact hq
          · rw [e0]; exact Or.inr ho
        · simp at hm
    · simp at hm

/-- Two boards with the same side to move that read alike on the squares of
a direction give the same moves in that direction. -/
theorem walk_congr (b1 b2 : Board P) (p d : xy) (rep : Bool) (n : Nat)
    (hside : b1.to_play = b2.to_play)
    (h : ∀ i : Nat, i < n →
      b1.get (step_to p d (8 - (n : Int) + (i : Int))).x
          (step_to p d (8 - (n : Int) + (i : Int))).y =
        b2.get (step_to p d (8 - (n : Int) + (i : Int))).x
          (step_to p d (8 - (n : Int) + (i : Int))).y) :
    walk b1 p d rep n = walk b2 p d rep n := by
  induction n with
  | zero => simp [walk]
  | succ n ih =>
    have e0 : (8 : Int) - ((n + 1 : Nat) : Int) + ((0 : Nat) : Int) = 8 - ((n : Int) + 1) := by
      push_cast; ring
    have es : ∀ j : Nat, (8 : Int) - ((n + 1 : Nat) : Int) + ((j + 1 : Nat) : Int)
        = 8 - (n : Int) + (j : Int) := by
      intro j; push_cast; ring
    have h0 := h 0 (Nat.succ_pos n)
    rw [e0] at h0
    have hv : vacant b1 (step_to p d (8 - ((n : Int) + 1))) =
        vacant b2 (step_to p d (8 - ((n : Int) + 1))) := by
      unfold vacant
      rw [h0]
    have ho : holds_opponent b1 (step_to p d (8 - ((n : Int) + 1))) =
        holds_opponent b2 (step_to p d (8 - ((n : Int) + 1))) := by
      unfold holds_opponent
      rw [h0, hside]
    have hrec : walk b1 p d rep n = walk b2 p d rep n :=
      ih (fun i hi => by
        have := h (i + 1) (by omega)
        rwa [es] at this)
    rw [walk_succ, walk_succ, hv, ho, hrec]

/-! ## C19: no capture of an own piece, no move on the spot -/

theorem vacant_is_empty {b : Board P} {q : xy} (h : vacant b q = true) :
    is_empty b q = .ok true := by
  unfold vacant at h
  unfold is_empty
  cases hg : b.get q.x q.y with
  | error e => rw [hg] at h; cases h
  | ok s =>
    rw [hg] at h
    simp only [bind, Except.bind, pure, Except.pure]
    simp only at h
    rw [h]

theorem holds_opponent_is_opponent {b : Board P} {q : xy} (h : holds_opponent b q = true) :
    is_opponent b q = .ok true := by
  unfold holds_opponent at h
  unfold is_opponent
  cases hg : b.get q.x q.y with
  | error e => rw [hg] at h; cases h
  | ok s =>
    rw [hg] at h
    simp only [Bool.and_eq_true, decide_eq_true_eq] at h
    simp only [bind, Except.bind, pure, Except.pure, h.1, if_true]
    simp [h.2]

theorem dest_zero (p d : xy) : dest p d 0 = p := by
  cases p
  simp [dest]

/-- From an on-board origin along a non-zero offset, a move of the direction
does not end on the origin. -/
theorem walk_to_ne_origin (b : Board P) {p d : xy} (rep : Bool) (hp : on_board p)
    (hd : d ≠ ⟨0, 0⟩) (hdx : is_int d.x) (hdy : is_int d.y) (m : move P)
    (hm : m ∈ walk b p d rep 7) :
    m.abstract.to_ ≠ p ∧
      (vacant b m.abstract.to_ = true ∨ holds_opponent b m.abstract.to_ = true) := by
  obtain ⟨i, hi, rfl, h1, -, hfree⟩ := walk_mem_free b p d rep 7 m hm
  have e1 : (8 : Int) - ((7 : Nat) : Int) + ((0 : Nat) : Int) = 1 := by norm_num
  have ei : (8 : Int) - ((7 : Nat) : Int) + (i : Int) = ((i + 1 : Nat) : Int) := by
    push_cast; ring
  rw [e1] at h1
  have hs : step_to p d ((i + 1 : Nat) : Int) = dest p d ((i + 1 : Nat) : Int) :=
    step_to_eq_dest hp hdx hdy (Or.inl h1) _ (by exact_mod_cast Nat.succ_pos i)
      (by exact_mod_cast (show i + 1 ≤ 7 by omega))
  refine ⟨?_, hfree⟩
  simp only [move.abstract]
  rw [ei, hs]
  intro hto
  have h0 : dest p d ((i + 1 : Nat) : Int) = dest p d 0 := by rw [hto, dest_zero]
  have := dest_inj hd h0
  have hpos : (0 : Int) < ((i + 1 : Nat) : Int) := by exact_mod_cast Nat.succ_pos i
  omega

/-- C19: from an on-board origin `p`, for a list of non-zero offsets and
either repeat flag, every move `list_moves_common` returns has a destination
different from `p`, and that destination is, in the input board, empty
(`is_empty`) or held by a piece of the other colour than the side to move
(`is_opponent`). -/
theorem no_own_capture_no_standstill (b : Board P) (p : xy) (offsets : List xy)
    (rep : Bool) (hp : on_board p)
    (hoff : ∀ o ∈ offsets, o ≠ ⟨0, 0⟩ ∧ is_int o.x ∧ is_int o.y) :
    ∃ ms, list_moves_common b p offsets rep = .ok ms ∧
      ∀ m ∈ ms, m.abstract.to_ ≠ p ∧
        (is_empty b m.abstract.to_ = .ok true ∨ is_opponent b m.abstract.to_ = .ok true) := by
  refine ⟨_, list_moves_common_eq b p offsets rep, ?_⟩
  intro m hm
  obtain ⟨d, hd, hmd⟩ := List.mem_flatMap.1 hm
  obtain ⟨hne, hint⟩ := hoff d hd
  obtain ⟨hto, hfree⟩ := walk_to_ne_origin b rep hp hne hint.1 hint.2 m hmd
  exact ⟨hto, hfree.imp vacant_is_empty holds_opponent_is_opponent⟩

/-- Witness for C19 on the example position: the rook on (0,0) with the rook
offsets goes up file 0 to the black pawn and one square along rank 0, never
onto the white king on (2,0). -/
theorem no_own_capture_no_standstill_witness :
    on_board (⟨0, 0⟩ : xy) ∧
    list_moves_common demo_board ⟨0, 0⟩ [⟨0, 1⟩, ⟨1, 0⟩, ⟨0, -1⟩, ⟨-1, 0⟩] true =
      .ok [move.normal_move ⟨⟨0, 0⟩, ⟨0, 1⟩⟩, move.normal_move ⟨⟨0, 0⟩, ⟨0, 2⟩⟩,
        move.normal_move ⟨⟨0, 0⟩, ⟨0, 3⟩⟩, move.normal_move ⟨⟨0, 0⟩, ⟨1, 0⟩⟩] ∧
    ∃ ms, list_moves_common demo_board ⟨0, 0⟩ [⟨0, 1⟩, ⟨1, 0⟩, ⟨0, -1⟩, ⟨-1, 0⟩] true =
        .ok ms ∧
      ∀ m ∈ ms, m.abstract.to_ ≠ ⟨0, 0⟩ ∧
        (is_empty demo_board m.abstract.to_ = .ok true ∨
          is_opponent demo_board m.abstract.to_ = .ok true) :=
  ⟨by decide, rfl,
    no_own_capture_no_standstill demo_board ⟨0, 0⟩ [⟨0, 1⟩, ⟨1, 0⟩, ⟨0, -1⟩, ⟨-1, 0⟩] true
      (by decide) (by decide)⟩

/-! ## C18: the generator does not look at the origin square -/

/-- A read off the board faults on every board alike. -/
theorem get_off_board (b1 b2 : Board P) {q : xy} (hq : ¬ on_board q) :
    b1.get q.x q.y = b2.get q.x q.y := by
  unfold Board.get
  by_cases hx : 0 ≤ q.x ∧ q.x < 8
  · have hy : ¬ (0 ≤ q.y ∧ q.y < 8) := fun hy => hq ⟨hx.1, hx.2, hy.1, hy.2⟩
    rw [index_of_bounds hx, index_eq_none hy]
  · rw [index_eq_none hx]

/-- One direction does not depend on what stands on the origin. -/
theorem walk_origin_irrelevant (b1 b2 : Board P) (p d : xy) (rep : Bool)
    (hside : b1.to_play = b2.to_play)
    (hagree : ∀ q : xy, q ≠ p → b1.get q.x q.y = b2.get q.x q.y)
    (hd : d ≠ ⟨0, 0⟩) (hdx : is_int d.x) (hdy : is_int d.y) :
    walk b1 p d rep 7 = walk b2 p d rep 7 := by
  by_cases hp : on_board p
  · by_cases h1 : on_board (step_to p d 1)
    · apply walk_congr b1 b2 p d rep 7 hside
      intro i hi
      have ei : (8 : Int) - ((7 : Nat) : Int) + (i : Int) = ((i + 1 : Nat) : Int) := by
        push_cast; ring
      have hs : step_to p d ((i + 1 : Nat) : Int) = dest p d ((i + 1 : Nat) : Int) :=
        step_to_eq_dest hp hdx hdy (Or.inl h1) _ (by exact_mod_cast Nat.succ_pos i)
          (by exact_mod_cast (show i + 1 ≤ 7 by omega))
      rw [ei, hs]
      apply hagree
      intro hto
      have h0 : dest p d ((i + 1 : Nat) : Int) = dest p d 0 := by rw [hto, dest_zero]
      have := dest_inj hd h0
      have hpos : (0 : Int) < ((i + 1 : Nat) : Int) := by exact_mod_cast Nat.succ_pos i
      omega
    · have e1 : (8 : Int) - (((6 : Nat) : Int) + 1) = 1 := by norm_num
      rw [walk_succ b1 p d rep 6, walk_succ b2 p d rep 6, e1, if_neg h1, if_neg h1]
  · apply walk_congr b1 b2 p d rep 7 hside
    intro i _
    by_cases hq : on_board (step_to p d (8 - ((7 : Nat) : Int) + (i : Int)))
    · apply hagree
      intro hto
      exact hp (hto ▸ hq)
    · exact get_off_board b1 b2 hq

/-- C18: for every origin `p`, every list of non-zero offsets and either
repeat flag, two boards with the same side to move that agree on every square
other than `p` (whatever stands on `p`, whatever their en-passant markers)
get the same list of moves from `list_moves_common`. -/
theorem origin_square_not_read (b1 b2 : Board P) (p : xy) (offsets : List xy) (rep : Bool)
    (hside : b1.to_play = b2.to_play)
    (hagree : ∀ q : xy, q ≠ p → b1.get q.x q.y = b2.get q.x q.y)
    (hoff : ∀ o ∈ offsets, o ≠ ⟨0, 0⟩ ∧ is_int o.x ∧ is_int o.y) :
    ∃ ms, list_moves_common b1 p offsets rep = .ok ms ∧
      list_moves_common b2 p offsets rep = .ok ms := by
  refine ⟨_, list_moves_common_eq b1 p offsets rep, ?_⟩
  rw [list_moves_common_eq b2 p offsets rep]
  congr 1
  induction offsets with
  | nil => rfl
  | cons o os ih =>
    obtain ⟨hne, hix, hiy⟩ := hoff o (List.mem_cons_self _ _)
    rw [List.flatMap_cons, List.flatMap_cons,
      walk_origin_irrelevant b1 b2 p o rep hside hagree hne hix hiy,
      ih (fun o1 h1 => hoff o1 (List.mem_cons_of_mem _ h1))]

/-- Witness for C18: the example position and the one with a black queen on
(0,0) give the same rook moves from (0,0). -/
theorem origin_square_not_read_witness :
    demo_board.get 0 0 = .ok ⟨some chessman.rook, color.White⟩ ∧
    demo_board_other.get 0 0 = .ok ⟨some chessman.queen, color.Black⟩ ∧
    ∃ ms, list_moves_common demo_board ⟨0, 0⟩ [⟨0, 1⟩, ⟨1, 0⟩, ⟨0, -1⟩, ⟨-1, 0⟩] true =
        .ok ms ∧
      list_moves_common demo_board_other ⟨0, 0⟩ [⟨0, 1⟩, ⟨1, 0⟩, ⟨0, -1⟩, ⟨-1, 0⟩] true =
        .ok ms := by
  refine ⟨rfl, rfl,
    origin_square_not_read demo_board demo_board_other ⟨0, 0⟩
      [⟨0, 1⟩, ⟨1, 0⟩, ⟨0, -1⟩, ⟨-1, 0⟩] true rfl ?_ (by decide)⟩
  intro q hq
  unfold Board.get
  cases hx : index q.x with
  | none => rfl
  | some i =>
    cases hy : index q.y with
    | none => rfl
    | some j =>
      have hij : ¬ (i = 0 ∧ j = 0) := by
        rintro ⟨hi, hj⟩
        subst hi; subst hj
        have h0 : index 0 = some (0 : Fin 8) := index_of_bounds (by decide)
        exact xy_ne_iff.1 hq ⟨index_inj hx h0, index_inj hy h0⟩
      simp only [demo_board_other, if_neg hij]

/-! ## C12: the order of the output -/

/-- Small displacements are told apart by the wrapped sum. -/
theorem wrap_add_inj (a u v : Int) (hu0 : -49 ≤ u) (hu1 : u ≤ 49) (hv0 : -49 ≤ v)
    (hv1 : v ≤ 49) (h : wrap (a + wrap u) = wrap (a + wrap v)) : u = v := by
  unfold wrap at h
  omega

/-- Two steps on the board force a small offset component. -/
theorem small_of_two_steps (a c : Int) (hc : is_int c)
    (h1 : 0 ≤ wrap (a + wrap (c * 1)) ∧ wrap (a + wrap (c * 1)) < 8)
    (h2 : 0 ≤ wrap (a + wrap (c * 2)) ∧ wrap (a + wrap (c * 2)) < 8) :
    -7 ≤ c ∧ c ≤ 7 := by
  unfold wrap at h1 h2
  unfold is_int at hc
  omega

theorem mul_small {c i : Int} (hc0 : -7 ≤ c) (hc1 : c ≤ 7) (hi1 : 1 ≤ i) (hi7 : i ≤ 7) :
    -49 ≤ c * i ∧ c * i ≤ 49 := by
  constructor <;> nlinarith

/-- Once the first two steps of a direction are on the board, the offset is
small and distinct distances give distinct destinations, also in Go `int`
arithmetic. -/
theorem step_to_inj {p d : xy} (hd : d ≠ ⟨0, 0⟩) (hdx : is_int d.x) (hdy : is_int d.y)
    (h1 : on_board (step_to p d 1)) (h2 : on_board (step_to p d 2)) {i j : Int}
    (hi1 : 1 ≤ i) (hi7 : i ≤ 7) (hj1 : 1 ≤ j) (hj7 : j ≤ 7)
    (h : step_to p d i = step_to p d j) : i = j := by
  obtain ⟨px, py⟩ := p
  obtain ⟨dx, dy⟩ := d
  simp only [on_board, step_to] at h1 h2
  simp only [step_to, xy.mk.injEq] at h
  have hx := small_of_two_steps px dx hdx ⟨h1.1, h1.2.1⟩ ⟨h2.1, h2.2.1⟩
  have hy := small_of_two_steps py dy hdy ⟨h1.2.2.1, h1.2.2.2⟩ ⟨h2.2.2.1, h2.2.2.2⟩
  have hdne : dx ≠ 0 ∨ dy ≠ 0 := by
    by_contra hcon
    push_neg at hcon
    exact hd (by rw [hcon.1, hcon.2])
  rcases hdne with hne | hne
  · have hxi := mul_small hx.1 hx.2 hi1 hi7
    have hxj := mul_small hx.1 hx.2 hj1 hj7
    exact mul_left_cancel₀ hne (wrap_add_inj px _ _ hxi.1 hxi.2 hxj.1 hxj.2 h.1)
  · have hyi := mul_small hy.1 hy.2 hi1 hi7
    have hyj := mul_small hy.1 hy.2 hj1 hj7
    exact mul_left_cancel₀ hne (wrap_add_inj py _ _ hyi.1 hyi.2 hyj.1 hyj.2 h.2)

/-- The square of the move at position `k` of a direction is on the board. -/
theorem walk_getElem_on_board (b : Board P) (p d : xy) (rep : Bool) (n k : Nat)
    (hk : k < (walk b p d rep n).length) :
    on_board (step_to p d (8 - (n : Int) + (k : Int))) := by
  have hget := walk_getElem b p d rep n k hk
  obtain ⟨q, hq, hon⟩ := walk_sound b p d rep n _ (List.getElem?_mem hget)
  simp only [move.normal_move.injEq, abstract_move.mk.injEq, true_and] at hq
  rw [hq]
  exact hon

/-- C12: with `seg d` the list `list_moves_direction` returns for offset `d`
from the empty list, `list_moves_direction(r, ...)` is `r ++ seg d`,
`list_moves_common` is the concatenation of the `seg d` in offset-table order,
the move at position `k` of `seg d` is the step at distance `k+1`, and for a
non-zero offset the distances of the moves of `seg d` increase strictly with
the position. -/
theorem output_order (b : Board P) (p : xy) (rep : Bool) :
    ∃ seg : xy → moves P,
      (∀ d, list_moves_direction [] b p d rep = .ok (seg d)) ∧
      (∀ d r, list_moves_direction r b p d rep = .ok (r ++ seg d)) ∧
      (∀ offsets, list_moves_common b p offsets rep = .ok (offsets.flatMap seg)) ∧
      (∀ d (k : Nat), k < (seg d).length →
        (seg d)[k]? = some (move.normal_move ⟨p, step_to p d ((k + 1 : Nat) : Int)⟩)) ∧
      (∀ d, d ≠ ⟨0, 0⟩ → is_int d.x → is_int d.y →
        ∀ k1 k2 i1 i2 : Nat, k1 < k2 → 1 ≤ i1 → i1 ≤ 7 → 1 ≤ i2 → i2 ≤ 7 →
          (seg d)[k1]? = some (move.normal_move ⟨p, step_to p d (i1 : Int)⟩) →
          (seg d)[k2]? = some (move.normal_move ⟨p, step_to p d (i2 : Int)⟩) →
          i1 < i2) := by
  have e : ∀ k : Nat, (8 : Int) - ((7 : Nat) : Int) + (k : Int) = ((k + 1 : Nat) : Int) := by
    intro k; push_cast; ring
  have hpos : ∀ d (k : Nat), k < (walk b p d rep 7).length →
      (walk b p d rep 7)[k]? =
        some (move.normal_move ⟨p, step_to p d ((k + 1 : Nat) : Int)⟩) := by
    intro d k hk
    rw [← e]
    exact walk_getElem b p d rep 7 k hk
  refine ⟨fun d => walk b p d rep 7, ?_, ?_, ?_, hpos, ?_⟩
  · intro d
    rw [list_moves_direction_eq, List.nil_append]
  · intro d r
    exact list_moves_direction_eq r b p d rep
  · intro offsets
    exact list_moves_common_eq b p offsets rep
  · intro d hd hdx hdy k1 k2 i1 i2 hk hi1 hi1' hi2 hi2' hg1 hg2
    simp only at hg1 hg2
    obtain ⟨hlt2, -⟩ := List.getElem?_eq_some.1 hg2
    have hlt1 : k1 < (walk b p d rep 7).length := by omega
    have hlen := walk_length_le b p d rep 7
    have hon1 : on_board (step_to p d 1) := by
      have := walk_getElem_on_board b p d rep 7 0 (by omega)
      rw [e] at this
      simpa using this
    have hon2 : on_board (step_to p d 2) := by
      have := walk_getElem_on_board b p d rep 7 1 (by omega)
      rw [e] at this
      simpa using this
    have hs1 := hpos d k1 hlt1
    have hs2 := hpos d k2 hlt2
    rw [hg1] at hs1
    rw [hg2] at hs2
    simp only [Option.some.injEq, move.normal_move.injEq, abstract_move.mk.injEq,
      true_and] at hs1 hs2
    have h1 : (i1 : Int) = ((k1 + 1 : Nat) : Int) :=
      step_to_inj hd hdx hdy hon1 hon2 (by exact_mod_cast hi1) (by exact_mod_cast hi1')
        (by exact_mod_cast Nat.succ_pos k1) (by exact_mod_cast (show k1 + 1 ≤ 7 by omega)) hs1
    have h2 : (i2 : Int) = ((k2 + 1 : Nat) : Int) :=
      step_to_inj hd hdx hdy hon1 hon2 (by exact_mod_cast hi2) (by exact_mod_cast hi2')
        (by exact_mod_cast Nat.succ_pos k2) (by exact_mod_cast (show k2 + 1 ≤ 7 by omega)) hs2
    have h1n : i1 = k1 + 1 := by exact_mod_cast h1
    have h2n : i2 = k2 + 1 := by exact_mod_cast h2
    omega

/-- Witness for C12 on the example position: the rook moves from (0,0), file
0 first by increasing distance, then rank 0, as the offset table orders
them. -/
theorem output_order_witness :
    list_moves_common demo_board ⟨0, 0⟩ [⟨0, 1⟩, ⟨1, 0⟩] true =
      .ok [move.normal_move ⟨⟨0, 0⟩, ⟨0, 1⟩⟩, move.normal_move ⟨⟨0, 0⟩, ⟨0, 2⟩⟩,
        move.normal_move ⟨⟨0, 0⟩, ⟨0, 3⟩⟩, move.normal_move ⟨⟨0, 0⟩, ⟨1, 0⟩⟩] ∧
    ∃ seg : xy → moves chessman,
      list_moves_direction [] demo_board ⟨0, 0⟩ ⟨0, 1⟩ true = .ok (seg ⟨0, 1⟩) ∧
      list_moves_direction [] demo_board ⟨0, 0⟩ ⟨1, 0⟩ true = .ok (seg ⟨1, 0⟩) ∧
      list_moves_common demo_board ⟨0, 0⟩ [⟨0, 1⟩, ⟨1, 0⟩] true =
        .ok (seg ⟨0, 1⟩ ++ seg ⟨1, 0⟩) := by
  obtain ⟨seg, h0, -, hc, -⟩ := output_order demo_board ⟨0, 0⟩ true
  refine ⟨rfl, seg, h0 _, h0 _, ?_⟩
  rw [hc]
  simp

/-! ## C15: generation is total -/

theorem flatMap_walk_length_le (b : Board P) (p : xy) (rep : Bool) (offsets : List xy) :
    (offsets.flatMap (fun d => walk b p d rep 7)).length ≤ 7 * offsets.length := by
  induction offsets with
  | nil => simp
  | cons o os ih =>
    have := walk_length_le b p o rep 7
    rw [List.flatMap_cons, List.length_append, List.length_cons]
    omega

/-- C15: for every board, origin, offset list and repeat flag,
`list_moves_common` returns a list, without a fault (every grid read goes
through the bounds-checked `Board.get`, so none was outside `[0,8)×[0,8)`), of
at most 7 moves per offset; each direction returns its accumulator extended by
at most 7 moves; and an iteration whose destination is off the board returns
the accumulator as it is. -/
theorem generation_total (b : Board P) (p : xy) (offsets : List xy) (rep : Bool) :
    (∃ ms, list_moves_common b p offsets rep = .ok ms ∧ ms.length ≤ 7 * offsets.length) ∧
    (∀ d r, ∃ seg, list_moves_direction r b p d rep = .ok (r ++ seg) ∧ seg.length ≤ 7) ∧
    (∀ d r (n : Nat), ¬ on_board (step_to p d (8 - ((n : Int) + 1))) →
      list_moves_direction_loop b p d rep (n + 1) r = .ok r) := by
  refine ⟨⟨_, list_moves_common_eq b p offsets rep, flatMap_walk_length_le b p rep offsets⟩,
    fun d r => ⟨_, list_moves_direction_eq r b p d rep, walk_length_le b p d rep 7⟩, ?_⟩
  intro d r n hoff
  rw [loop_eq_walk, walk_succ, if_neg hoff, List.append_nil]

/-- Witness for C15 on the example position: from (0,0) the offset (0,-1)
leaves the board at once and gives no move, and no fault. -/
theorem generation_total_witness :
    ¬ on_board (step_to ⟨0, 0⟩ ⟨0, -1⟩ 1) ∧
    list_moves_direction [] demo_board ⟨0, 0⟩ ⟨0, -1⟩ true = .ok [] ∧
    ∃ ms, list_moves_common demo_board ⟨0, 0⟩ [⟨0, -1⟩, ⟨1, 0⟩] true = .ok ms ∧
      ms.length ≤ 7 * 2 :=
  ⟨by decide, rfl,
    (generation_total demo_board ⟨0, 0⟩ [⟨0, -1⟩, ⟨1, 0⟩] true).1⟩

/-! ## C16: the castle variant -/

theorem king_castle_perform_eq {b b1 b2 b3 b4 : Board P} {m : king_castle} {k r : square P}
    (hk : b.get m.king.from_.x m.king.from_.y = .ok k)
    (h1 : b.set m.king.to_.x m.king.to_.y k = .ok b1)
    (h2 : b1.set m.king.from_.x m.king.from_.y ⟨none, color.White⟩ = .ok b2)
    (hr : b2.get m.rook.from_.x m.rook.from_.y = .ok r)
    (h3 : b2.set m.rook.to_.x m.rook.to_.y r = .ok b3)
    (h4 : b3.set m.rook.from_.x m.rook.from_.y ⟨none, color.White⟩ = .ok b4) :
    m.perform_move b = .ok { b4 with en_passant := -2, to_play := flip_color b4.to_play } := by
  simp only [king_castle.perform_move, hk, h1, h2, hr, h3, h4, bind, Except.bind, pure,
    Except.pure]

/-- The rendering of a castle holds the arrow, so it is not empty. -/
theorem king_castle_String_ne_empty (m : king_castle) : m.String ≠ "" := by
  intro h
  have hl := congrArg String.length h
  simp only [king_castle.String, String.length_append] at hl
  have harrow : "→".length = 1 := rfl
  have hempty : "".length = 0 := rfl
  omega

/-- C16: on the castle methods modelled from the spec, applying a castle move
whose four squares are on the board and pairwise distinct returns a board in
which `king.to` holds what was on `king.from`, `rook.to` holds what was on
`rook.from`, both origin squares are the empty square and the side to move is
flipped; and the castle has a rendering, a non-empty string. -/
theorem king_castle_relocates (b : Board P) (m : king_castle)
    (hkf : on_board m.king.from_) (hkt : on_board m.king.to_)
    (hrf : on_board m.rook.from_) (hrt : on_board m.rook.to_)
    (hk : m.king.from_ ≠ m.king.to_) (hr : m.rook.from_ ≠ m.rook.to_)
    (hff : m.king.from_ ≠ m.rook.from_) (hft : m.king.from_ ≠ m.rook.to_)
    (htf : m.king.to_ ≠ m.rook.from_) (htt : m.king.to_ ≠ m.rook.to_) :
    (∃ k r b1, b.get m.king.from_.x m.king.from_.y = .ok k ∧
      b.get m.rook.from_.x m.rook.from_.y = .ok r ∧
      m.perform_move b = .ok b1 ∧
      b1.get m.king.to_.x m.king.to_.y = .ok k ∧
      b1.get m.rook.to_.x m.rook.to_.y = .ok r ∧
      b1.get m.king.from_.x m.king.from_.y = .ok ⟨none, color.White⟩ ∧
      b1.get m.rook.from_.x m.rook.from_.y = .ok ⟨none, color.White⟩ ∧
      b1.to_play = flip_color b.to_play ∧ b1.to_play ≠ b.to_play) ∧
    m.String ≠ "" := by
  refine ⟨?_, king_castle_String_ne_empty m⟩
  obtain ⟨k, a1, a2, hgk, h1, h2, -, -, hp2, hkfrom, hkto, hfr2, hfr1⟩ :=
    relocate_ok b m.king hkf hkt
  obtain ⟨r, a3, a4, hgr, h3, h4, -, -, hp4, hrfrom, hrto, hfr4, hfr3⟩ :=
    relocate_ok a2 m.rook hrf hrt
  have hrold : b.get m.rook.from_.x m.rook.from_.y = .ok r := by
    rw [← hfr1 _ _ (xy_ne_iff.1 htf.symm), ← hfr2 _ _ (xy_ne_iff.1 hff.symm)]
    exact hgr
  have hking : a4.get m.king.to_.x m.king.to_.y = .ok k := by
    rw [hfr4 _ _ (xy_ne_iff.1 htf), hfr3 _ _ (xy_ne_iff.1 htt)]
    exact hkto hk
  have hkorigin : a4.get m.king.from_.x m.king.from_.y = .ok ⟨none, color.White⟩ := by
    rw [hfr4 _ _ (xy_ne_iff.1 hff), hfr3 _ _ (xy_ne_iff.1 hft)]
    exact hkfrom
  have hside : flip_color a4.to_play = flip_color b.to_play := by rw [hp4, hp2]
  refine ⟨k, r, { a4 with en_passant := -2, to_play := flip_color a4.to_play }, hgk, hrold,
    king_castle_perform_eq hgk h1 h2 hgr h3 h4, ?_⟩
  simp only [get_with_fields]
  exact ⟨hking, hrto hr, hkorigin, hrfrom, hside, hside ▸ flip_color_ne b.to_play⟩

/-- Witness for C16: castling on the king's side, king from (4,0) to (6,0)
and rook from (7,0) to (5,0). -/
theorem king_castle_relocates_witness :
    castle_board.get 4 0 = .ok ⟨some chessman.king, color.White⟩ ∧
    castle_board.get 7 0 = .ok ⟨some chessman.rook, color.White⟩ ∧
    (∃ k r b1, castle_board.get 4 0 = .ok k ∧ castle_board.get 7 0 = .ok r ∧
      king_castle.perform_move ⟨⟨⟨4, 0⟩, ⟨6, 0⟩⟩, ⟨⟨7, 0⟩, ⟨5, 0⟩⟩⟩ castle_board = .ok b1 ∧
      b1.get 6 0 = .ok k ∧ b1.get 5 0 = .ok r ∧
      b1.get 4 0 = .ok ⟨none, color.White⟩ ∧ b1.get 7 0 = .ok ⟨none, color.White⟩ ∧
      b1.to_play = flip_color castle_board.to_play ∧ b1.to_play ≠ castle_board.to_play) ∧
    king_castle.String ⟨⟨⟨4, 0⟩, ⟨6, 0⟩⟩, ⟨⟨7, 0⟩, ⟨5, 0⟩⟩⟩ = "e1→g1" := by
  have hon : ∀ q ∈ [(⟨4, 0⟩ : xy), ⟨6, 0⟩, ⟨7, 0⟩, ⟨5, 0⟩], on_board q := by decide
  have hdistinct : [(⟨4, 0⟩ : xy), ⟨6, 0⟩, ⟨7, 0⟩, ⟨5, 0⟩].Pairwise (fun p q => p ≠ q) := by
    decide
  simp only [List.mem_cons, List.mem_singleton, List.not_mem_nil, or_false, forall_eq_or_imp,
    forall_eq] at hon
  simp only [List.pairwise_cons, List.mem_cons, List.mem_singleton, List.not_mem_nil,
    or_false, forall_eq_or_imp, forall_eq, List.Pairwise.nil, and_true, IsEmpty.forall_iff,
    implies_true] at hdistinct
  exact ⟨rfl, rfl,
    (king_castle_relocates castle_board ⟨⟨⟨4, 0⟩, ⟨6, 0⟩⟩, ⟨⟨7, 0⟩, ⟨5, 0⟩⟩⟩
      hon.1 hon.2.1 hon.2.2.1 hon.2.2.2 hdistinct.1.1 hdistinct.2.2 hdistinct.1.2.1
      hdistinct.1.2.2 hdistinct.2.1.1 hdistinct.2.1.2).1, rfl⟩

end Chess
